import Mathlib

/-! Scanner character device (`hw5/Scanner.c`): a shallow embedding

The driver keeps one `Scanner` per open file.  `write` stores either a separator
list or an input line (selected by the `ioctl` flag), `read` hands out the next
token of the input line, `ioctl` arms the separator mode.

Conventions of the embedding.

* A C `char` is a `Byte` (a natural number); the code only ever compares chars
  for equality.
* A heap buffer is the list of its bytes.  An access outside the buffer, an
  access through a pointer that references no live allocation, and `kfree` of
  such a pointer are undefined in C: the embedded function then yields `none`.
* `size_t` values are natural numbers.  The two places where the code stores the
  `int` constant `-1` in a `size_t` go through `sizeOfInt`, and a `size_t` that
  is returned as `ssize_t` goes through `toSsize`.
* `kmalloc` is taken to succeed (the `-ENOMEM` paths are not part of the
  tokenizer's behaviour).
* `copy_to_user` / `copy_from_user` return the number of bytes they could not
  transfer; this number is an input of the embedded `read` / `write`.
-/

namespace HW5

/-- A C `char`, compared by value. -/
abbrev Byte := Nat

/-- The per-file state, `typedef struct { ... } Scanner`.  The field `s` is
`none` while the pointer references no live allocation (not yet assigned after
`open`, or already passed to `kfree`). -/
structure Scanner where
  s : Option (List Byte)
  separatorList : List Byte
  inputSize : Nat
  ioctl : Int
  separatorListLength : Nat
  inputProcessedChars : Nat
deriving DecidableEq

/-- The device record, `typedef struct { ... } Device`, restricted to the
separator string. -/
structure Device where
  separatorList : List Byte
deriving DecidableEq

/-- Value of an `int` stored into a `size_t` object (reduction modulo `2^64`). -/
def sizeOfInt (i : Int) : Nat := (i % (2 : Int) ^ 64).toNat

/-- Value of a `size_t` returned through the `ssize_t` return type. -/
def toSsize (n : Nat) : Int :=
  if n % 2 ^ 64 < 2 ^ 63 then ((n % 2 ^ 64 : Nat) : Int)
  else ((n % 2 ^ 64 : Nat) : Int) - (2 : Int) ^ 64

/-- C `strlen`: the number of bytes before the first NUL. -/
def strlen : List Byte → Nat
  | [] => 0
  | c :: rest => if c = 0 then 0 else strlen rest + 1

/-- The string literal `defaultSep` of `my_init`:
space, tab, newline and `: ; , + - = ! @ . / # $ % & *`. -/
def defaultSep : List Byte :=
  [32, 9, 10, 58, 59, 44, 43, 45, 61, 33, 64, 46, 47, 35, 36, 37, 38, 42]

/-- The device after `my_init`: `device.separatorList` holds a copy of
`defaultSep` with its terminating NUL. -/
def my_init : Device :=
  { separatorList := defaultSep ++ [0] }

/-- The driver's `open`.  The `Scanner` comes from `kmalloc`, so the fields the
function does not assign (`inputSize`, `inputProcessedChars`) hold whatever the
allocation held: they are the parameters `junkSize` and `junkProcessed`; the
pointer `s` references no allocation. -/
def openScanner (device : Device) (junkSize junkProcessed : Nat) : Scanner :=
  { s := none
    separatorList := device.separatorList.take (strlen device.separatorList + 1)
    inputSize := junkSize
    ioctl := 1
    separatorListLength := strlen device.separatorList
    inputProcessedChars := junkProcessed }

/-- The `for` loop of `isCharSeparator`.  The first numeric argument is the
number of iterations still to run, `separatorListLength - i`; the second is
`i`. -/
def isCharSeparatorLoop (separatorList : List Byte) (cmp : Byte) : Nat → Nat → Option Int
  | 0, _ => some 0
  | remaining + 1, i =>
    match separatorList[i]? with
    | none => none
    | some c =>
      if c = cmp then some 1
      else isCharSeparatorLoop separatorList cmp remaining (i + 1)

/-- The driver's `isCharSeparator`. -/
def isCharSeparator (scan : Scanner) (cmp : Byte) : Option Int :=
  isCharSeparatorLoop scan.separatorList cmp scan.separatorListLength 0

/-- The locals of `read` that the scanning loop updates. -/
structure ReadLocals where
  numCharsProcessed : Nat
  separatorFound : Int
  currentToken : List Byte
deriving DecidableEq

/-- The `while` loop of `read`.  The first argument is the remaining budget
`charRequested - numCharsProcessed`, so the test `numCharsProcessed <
charRequested` is the test that the budget is not zero.  `separatorFound` is 0
whenever the test is evaluated at the top of an iteration that stored a
character, and an iteration that finds a separator leaves the loop at the next
test, which is the immediate return in that branch. -/
def readLoop : Nat → Scanner → ReadLocals → Option (Scanner × ReadLocals)
  | 0, scan, loc => some (scan, loc)
  | budget + 1, scan, loc =>
    if scan.inputProcessedChars < scan.inputSize then
      match scan.s with
      | none => none
      | some buf =>
        match buf[scan.inputProcessedChars]? with
        | none => none
        | some currChar =>
          match isCharSeparator scan currChar with
          | none => none
          | some found =>
            if found = 0 then
              if loc.numCharsProcessed + 1 < loc.currentToken.length then
                readLoop budget
                  { scan with inputProcessedChars := scan.inputProcessedChars + 1 }
                  { numCharsProcessed := loc.numCharsProcessed + 1
                    separatorFound := found
                    currentToken :=
                      (loc.currentToken.set loc.numCharsProcessed currChar).set
                        (loc.numCharsProcessed + 1) 0 }
              else none
            else some (scan, { loc with separatorFound := found })
    else some (scan, loc)

/-- Return value of `copy_to_user` / `copy_from_user` for a transfer of `n`
bytes of which the user side cannot take `uncopied`: the number of bytes left
untransferred, never more than `n`. -/
def copyResidue (n uncopied : Nat) : Nat := min uncopied n

/-- What a call of `read` yields: the returned `ssize_t`, the bytes that reached
the user's buffer, and the scanner afterwards. -/
structure ReadResult where
  ret : Int
  buf : List Byte
  scan : Scanner
deriving DecidableEq

/-- The special cases after the copy in `read`: the two consecutive `if`
statements, on the local `numCharsProcessed` and the scanner. -/
def readSpecialCases (scan : Scanner) (loc : ReadLocals) : Option (Nat × Scanner) :=
  let first : Option (Nat × Scanner) :=
    if scan.inputProcessedChars = scan.inputSize ∧ loc.numCharsProcessed = 0 then
      match scan.s with
      | none => none
      | some _ => some (sizeOfInt (-1), { scan with s := none })
    else some (loc.numCharsProcessed, scan)
  match first with
  | none => none
  | some (n, scan1) =>
    if loc.separatorFound ≠ 0 ∧ n = 0 then
      some (n, { scan1 with inputProcessedChars := scan1.inputProcessedChars + 1 })
    else some (n, scan1)

/-- The driver's `read` for a request of `charRequested` bytes; `uncopied` is
the number of bytes the user's buffer cannot take.  `currentToken` is the
`charRequested + 1` zero bytes from `kmalloc` and `memset`; the size is taken
without wrap-around (the file layer passes counts far below `2^64 - 1`).  When
`copy_to_user` reports a failure the function returns 0 at once, before the
special cases. -/
def read (scan : Scanner) (charRequested uncopied : Nat) : Option ReadResult :=
  match readLoop charRequested scan
      { numCharsProcessed := 0
        separatorFound := 0
        currentToken := List.replicate (charRequested + 1) 0 } with
  | none => none
  | some (scan1, loc) =>
    if copyResidue loc.numCharsProcessed uncopied ≠ 0 then
      some { ret := 0
             buf := loc.currentToken.take
               (loc.numCharsProcessed - copyResidue loc.numCharsProcessed uncopied)
             scan := scan1 }
    else
      match readSpecialCases scan1 loc with
      | none => none
      | some (n, scan2) =>
        some { ret := toSsize n
               buf := loc.currentToken.take loc.numCharsProcessed
               scan := scan2 }

/-- The driver's `ioctl`: the returned `long` (0 in every case) and the scanner
afterwards.  `cmd` is an `unsigned int`, `arg` an `unsigned long`. -/
def ioctl (scan : Scanner) (cmd arg : Nat) : Int × Scanner :=
  if cmd = 0 ∧ arg = 0 then (0, { scan with ioctl := 0 }) else (0, scan)

/-- What a call of `write` yields: the returned `ssize_t` and the scanner
afterwards. -/
structure WriteResult where
  ret : Int
  scan : Scanner
deriving DecidableEq

/-- The buffer `write` builds: `len + 1` bytes from `kmalloc`, cleared by
`memset`, then filled by `copy_from_user` with the bytes that could be
transferred. -/
def writeBuffer (line : List Byte) (uncopied : Nat) : List Byte :=
  line.take (line.length - copyResidue line.length uncopied)
    ++ List.replicate (copyResidue line.length uncopied + 1) 0

/-- The local `len` of `write` after the `copy_from_user` test: `-1` stored in
the `size_t` when the transfer failed. -/
def writeLen (line : List Byte) (uncopied : Nat) : Nat :=
  if copyResidue line.length uncopied ≠ 0 then sizeOfInt (-1) else line.length

/-- The driver's `write` of the `len = line.length` bytes `line`; `uncopied` is
the number of bytes that cannot be fetched from the user. -/
def write (scan : Scanner) (line : List Byte) (uncopied : Nat) : WriteResult :=
  if scan.ioctl = 0 then
    { ret := toSsize (writeLen line uncopied)
      scan := { scan with
        separatorList := writeBuffer line uncopied
        separatorListLength := writeLen line uncopied
        ioctl := 1 } }
  else
    { ret := toSsize (writeLen line uncopied)
      scan := { scan with
        s := some (writeBuffer line uncopied)
        inputSize := writeLen line uncopied
        inputProcessedChars := 0 } }

/-! ## Spec-level views of a session -/

/-- The separator set of a session: the first `separatorListLength` bytes of the
separator buffer. -/
def separators (scan : Scanner) : List Byte :=
  scan.separatorList.take scan.separatorListLength

/-- The input of a session: the first `inputSize` bytes of the input buffer
(empty when there is no live buffer). -/
def input (scan : Scanner) : List Byte :=
  match scan.s with
  | none => []
  | some buf => buf.take scan.inputSize

/-- The recorded lengths lie within their buffers, the input buffer is live and
the cursor is within the input. -/
def WellFormed (scan : Scanner) : Prop :=
  scan.separatorListLength ≤ scan.separatorList.length ∧
  scan.inputProcessedChars ≤ scan.inputSize ∧
  ∃ buf, scan.s = some buf ∧ scan.inputSize ≤ buf.length

/-- The token the spec describes for a read of `maxBytes` bytes: the longest
separator-free prefix of the unread input, cut to `maxBytes` bytes. -/
def specToken (scan : Scanner) (maxBytes : Nat) : List Byte :=
  ((input scan).drop scan.inputProcessedChars |>.takeWhile
    (fun c => decide (c ∉ separators scan))).take maxBytes

/-- The scanner a `read` of `maxBytes` bytes leaves behind, in terms of the
spec-level token. -/
def scanAfterRead (scan : Scanner) (maxBytes : Nat) : Scanner :=
  { scan with
    s := if scan.inputProcessedChars = scan.inputSize then none else scan.s
    inputProcessedChars :=
      scan.inputProcessedChars + (specToken scan maxBytes).length
        + (if (specToken scan maxBytes).length = 0 ∧ 0 < maxBytes ∧
              scan.inputProcessedChars < scan.inputSize then 1 else 0) }

/-- A session whose separator set is `seps` and whose unread input is `rest`:
well formed, with an input that fits a signed 64-bit count. -/
def Ready (seps : List Byte) (scan : Scanner) (rest : List Byte) : Prop :=
  WellFormed scan ∧ separators scan = seps ∧
    (input scan).drop scan.inputProcessedChars = rest ∧ scan.inputSize < 2 ^ 63

/-- Successive calls of `read`, each for `maxBytes` bytes and each with a
user buffer that takes every byte: the returned values and delivered tokens, in
order, and the scanner after the last call. -/
def readMany (maxBytes : Nat) : Nat → Scanner → Option (List (Int × List Byte) × Scanner)
  | 0, scan => some ([], scan)
  | n + 1, scan =>
    match read scan maxBytes 0 with
    | none => none
    | some r =>
      match readMany maxBytes n r.scan with
      | none => none
      | some (outs, final) => some ((r.ret, r.buf) :: outs, final)

/-- The scan of a read that stored `produced` characters stopped on a separator:
the budget was not used up and the character under the cursor after the stored
ones is a separator (this is when the loop leaves `separatorFound` set). -/
def stoppedOnSeparator (scan : Scanner) (maxBytes produced : Nat) : Prop :=
  produced < maxBytes ∧
    ∃ c, (input scan)[scan.inputProcessedChars + produced]? = some c ∧
      isCharSeparator scan c = some 1

/-- The session after a successful `write` of `line` in the mode that takes
input, on a session whose separator set is `seps`. -/
def exampleScanner (line seps : List Byte) : Scanner :=
  (write { s := none, separatorList := seps ++ [0], inputSize := 0, ioctl := 1,
           separatorListLength := seps.length, inputProcessedChars := 0 } line 0).scan

/-- The session after `supplyInput "ab,cd"` with the separator set `{","}`
(bytes: `a` 97, `b` 98, `,` 44, `c` 99, `d` 100). -/
def abcdScanner : Scanner := exampleScanner [97, 98, 44, 99, 100] [44]

/-- A session in the mode that takes input (`ioctl` flag 1), separator set
`{","}`, holding the partly read input `"xy"` (cursor 1). -/
def inputModeScanner : Scanner :=
  { s := some [120, 121, 0], separatorList := [44, 0], inputSize := 2, ioctl := 1,
    separatorListLength := 1, inputProcessedChars := 1 }

/-- The session `inputModeScanner` after `ioctl(0, 0)`: the next `write` sets
the separators. -/
def separatorModeScanner : Scanner := (ioctl inputModeScanner 0 0).2

/-- One call on a session: `read` with the request size and the number of bytes
the user's buffer cannot take, `ioctl` with its command and argument, or `write`
with the bytes and the number of them that cannot be fetched. -/
inductive Call where
  | read (charRequested uncopied : Nat)
  | ioctl (cmd arg : Nat)
  | write (line : List Byte) (uncopied : Nat)
deriving DecidableEq

/-- The session after one call; `none` when the call has no defined behaviour. -/
def applyCall (scan : Scanner) : Call → Option Scanner
  | .read charRequested uncopied => (read scan charRequested uncopied).map (fun r => r.scan)
  | .ioctl cmd arg => some (ioctl scan cmd arg).2
  | .write line uncopied => some (write scan line uncopied).scan

/-- The session after a sequence of calls, in order. -/
def runCalls : Scanner → List Call → Option Scanner
  | scan, [] => some scan
  | scan, call :: rest =>
    match applyCall scan call with
    | none => none
    | some next => runCalls next rest

/-- The session after `supplyInput ""` on `inputModeScanner`. -/
def emptyInputScanner : Scanner := (write inputModeScanner [] 0).scan

/-- The session after `supplyInput "ab"` on `inputModeScanner`. -/
def abScanner : Scanner := (write inputModeScanner [97, 98] 0).scan

/-- The session `abcdScanner` with the cursor on the comma (after `"ab"` was
read). -/
def abcdAtCommaScanner : Scanner := { abcdScanner with inputProcessedChars := 2 }

/-- The session reached from `inputModeScanner` by `write ",a"`, `read` of 10
bytes, `ioctl(0, 0)`, `write ";"`, `read` of 10 bytes, `write "ab"` and `read`
of 1 byte: separator `;`, input `"ab"`, cursor 1. -/
def afterCallsScanner : Scanner :=
  { s := some [97, 98, 0], separatorList := [59, 0], inputSize := 2, ioctl := 1,
    separatorListLength := 1, inputProcessedChars := 1 }

/-! ## Auxiliary lemmas -/

theorem isCharSeparatorLoop_eq (separatorList : List Byte) (cmp : Byte) :
    ∀ (remaining i : Nat), i + remaining ≤ separatorList.length →
      isCharSeparatorLoop separatorList cmp remaining i
        = some (if cmp ∈ (separatorList.drop i).take remaining then 1 else 0) := by
  intro remaining
  induction remaining with
  | zero => intro i _; simp [isCharSeparatorLoop]
  | succ n ih =>
    intro i hi
    have hlt : i < separatorList.length := by omega
    have hdrop : separatorList.drop i = separatorList[i] :: separatorList.drop (i + 1) :=
      List.drop_eq_getElem_cons hlt
    rw [isCharSeparatorLoop, List.getElem?_eq_getElem hlt]
    simp only [hdrop, List.take_succ_cons, List.mem_cons]
    by_cases hc : separatorList[i] = cmp
    · simp [hc]
    · have hc2 : ¬ cmp = separatorList[i] := fun h => hc h.symm
      rw [if_neg hc, ih (i + 1) (by omega)]
      simp [hc2]

theorem isCharSeparator_eq (scan : Scanner) (cmp : Byte)
    (h : scan.separatorListLength ≤ scan.separatorList.length) :
    isCharSeparator scan cmp = some (if cmp ∈ separators scan then 1 else 0) := by
  unfold isCharSeparator separators
  rw [isCharSeparatorLoop_eq _ _ _ _ (by omega)]
  simp

theorem input_of_live (scan : Scanner) (buf : List Byte) (hs : scan.s = some buf) :
    input scan = buf.take scan.inputSize := by
  simp [input, hs]

theorem specToken_zero (scan : Scanner) : specToken scan 0 = [] := by
  simp [specToken]

theorem specToken_at_end (scan : Scanner) (maxBytes : Nat)
    (h : ¬ scan.inputProcessedChars < scan.inputSize) : specToken scan maxBytes = [] := by
  have hlen : (input scan).length ≤ scan.inputProcessedChars := by
    unfold input
    cases scan.s with
    | none => simp
    | some buf => simp only [List.length_take]; omega
  simp [specToken, List.drop_eq_nil_of_le hlen]

theorem drop_input_cons (scan : Scanner) (buf : List Byte) (hs : scan.s = some buf)
    (hsize : scan.inputSize ≤ buf.length) (hlt : scan.inputProcessedChars < scan.inputSize) :
    ∃ c, buf[scan.inputProcessedChars]? = some c ∧
      (input scan).drop scan.inputProcessedChars
        = c :: (input scan).drop (scan.inputProcessedChars + 1) := by
  have hb : scan.inputProcessedChars < buf.length := by omega
  refine ⟨buf[scan.inputProcessedChars], List.getElem?_eq_getElem hb, ?_⟩
  rw [input_of_live scan buf hs]
  have hl : scan.inputProcessedChars < (buf.take scan.inputSize).length := by
    simp only [List.length_take]; omega
  rw [List.drop_eq_getElem_cons hl]
  simp [List.getElem_take]

theorem specToken_separator (scan : Scanner) (maxBytes : Nat) (c : Byte) (rest : List Byte)
    (hdrop : (input scan).drop scan.inputProcessedChars = c :: rest)
    (hmem : c ∈ separators scan) : specToken scan maxBytes = [] := by
  simp [specToken, hdrop, hmem]

theorem specToken_step (scan : Scanner) (maxBytes : Nat) (c : Byte)
    (hdrop : (input scan).drop scan.inputProcessedChars
      = c :: (input scan).drop (scan.inputProcessedChars + 1))
    (hmem : c ∉ separators scan) :
    specToken scan (maxBytes + 1)
      = c :: specToken { scan with inputProcessedChars := scan.inputProcessedChars + 1 } maxBytes := by
  have h1 : input { scan with inputProcessedChars := scan.inputProcessedChars + 1 } = input scan := rfl
  have h2 : separators { scan with inputProcessedChars := scan.inputProcessedChars + 1 }
      = separators scan := rfl
  simp only [specToken, h1, h2, hdrop]
  simp [hmem]

theorem readLoop_store (budget : Nat) (scan : Scanner) (loc : ReadLocals) (buf : List Byte)
    (c : Byte) (hlt : scan.inputProcessedChars < scan.inputSize) (hs : scan.s = some buf)
    (hc : buf[scan.inputProcessedChars]? = some c) (hsep : isCharSeparator scan c = some 0)
    (hcap : loc.numCharsProcessed + 1 < loc.currentToken.length) :
    readLoop (budget + 1) scan loc
      = readLoop budget
          { scan with inputProcessedChars := scan.inputProcessedChars + 1 }
          { numCharsProcessed := loc.numCharsProcessed + 1
            separatorFound := 0
            currentToken :=
              (loc.currentToken.set loc.numCharsProcessed c).set (loc.numCharsProcessed + 1) 0 } := by
  rw [readLoop, if_pos hlt]
  simp [hs, hc, hsep, hcap]

theorem readLoop_stop (budget : Nat) (scan : Scanner) (loc : ReadLocals) (buf : List Byte)
    (c : Byte) (hlt : scan.inputProcessedChars < scan.inputSize) (hs : scan.s = some buf)
    (hc : buf[scan.inputProcessedChars]? = some c) (hsep : isCharSeparator scan c = some 1) :
    readLoop (budget + 1) scan loc = some (scan, { loc with separatorFound := 1 }) := by
  rw [readLoop, if_pos hlt]
  simp [hs, hc, hsep]

theorem readLoop_eq : ∀ (budget : Nat) (scan : Scanner) (buf tok : List Byte),
    scan.s = some buf → scan.inputSize ≤ buf.length →
    scan.separatorListLength ≤ scan.separatorList.length →
    readLoop budget scan
        { numCharsProcessed := tok.length
          separatorFound := 0
          currentToken := tok ++ List.replicate (budget + 1) 0 }
      = some
        ({ scan with
            inputProcessedChars := scan.inputProcessedChars + (specToken scan budget).length },
         { numCharsProcessed := tok.length + (specToken scan budget).length
           separatorFound :=
             if (specToken scan budget).length < budget ∧
                 scan.inputProcessedChars + (specToken scan budget).length < scan.inputSize
             then 1 else 0
           currentToken := tok ++ specToken scan budget
             ++ List.replicate (budget - (specToken scan budget).length + 1) 0 }) := by
  intro budget
  induction budget with
  | zero =>
    intro scan buf tok _ _ _
    simp [readLoop, specToken_zero]
  | succ b ih =>
    intro scan buf tok hs hsize hsep
    by_cases hlt : scan.inputProcessedChars < scan.inputSize
    · obtain ⟨c, hc, hdrop⟩ := drop_input_cons scan buf hs hsize hlt
      have hchar := isCharSeparator_eq scan c hsep
      by_cases hmem : c ∈ separators scan
      · have htok : specToken scan (b + 1) = [] := specToken_separator scan (b + 1) c _ hdrop hmem
        rw [if_pos hmem] at hchar
        rw [readLoop_stop b scan _ buf c hlt hs hc hchar]
        simp [htok, hlt]
      · have htok := specToken_step scan b c hdrop hmem
        rw [if_neg hmem] at hchar
        rw [readLoop_store b scan _ buf c hlt hs hc hchar (by simp)]
        have hset : ((tok ++ List.replicate (b + 1 + 1) 0).set tok.length c).set (tok.length + 1) 0
            = (tok ++ [c]) ++ List.replicate (b + 1) 0 := by
          simp [List.replicate_succ, List.set_append]
        simp only [hset]
        have hrec := ih { scan with inputProcessedChars := scan.inputProcessedChars + 1 } buf
          (tok ++ [c]) hs hsize hsep
        simp only [List.length_append, List.length_singleton] at hrec
        rw [hrec, htok]
        simp only [List.length_cons, Option.some.injEq, Prod.mk.injEq]
        refine ⟨?_, ?_⟩
        · simp; omega
        · simp only [ReadLocals.mk.injEq]
          refine ⟨by omega, ?_, ?_⟩
          · congr 1
            simp only [eq_iff_iff]
            constructor <;> (intro h; omega)
          · simp
    · rw [readLoop, if_neg hlt]
      simp [specToken_at_end scan (b + 1) hlt, hlt]

theorem toSsize_sizeOfInt_neg_one : sizeOfInt (-1) = 2 ^ 64 - 1 ∧ toSsize (sizeOfInt (-1)) = -1 := by
  constructor <;> decide

theorem toSsize_of_lt (n : Nat) (h : n < 2 ^ 63) : toSsize n = (n : Int) := by
  unfold toSsize
  have h1 : n % 2 ^ 64 = n := Nat.mod_eq_of_lt (by omega)
  rw [h1, if_pos h]

theorem specToken_length_le (scan : Scanner) (maxBytes : Nat) :
    (specToken scan maxBytes).length ≤ maxBytes := by
  simp [specToken, List.length_take]

theorem specToken_length_le_rest (scan : Scanner) (maxBytes : Nat) :
    scan.inputProcessedChars + (specToken scan maxBytes).length
      ≤ max scan.inputProcessedChars (input scan).length := by
  have h1 : (specToken scan maxBytes).length
      ≤ ((input scan).drop scan.inputProcessedChars).length := by
    unfold specToken
    rw [List.length_take]
    exact le_trans (min_le_right _ _) (List.takeWhile_sublist _).length_le
  simp only [List.length_drop] at h1
  omega

theorem input_length (scan : Scanner) (h : WellFormed scan) :
    (input scan).length = scan.inputSize := by
  obtain ⟨_, _, buf, hs, hsize⟩ := h
  rw [input_of_live scan buf hs, List.length_take]
  omega

theorem read_eq (scan : Scanner) (charRequested uncopied : Nat) (h : WellFormed scan) :
    read scan charRequested uncopied
      = some
          { ret :=
              if copyResidue (specToken scan charRequested).length uncopied ≠ 0 then 0
              else if scan.inputProcessedChars = scan.inputSize then -1
              else toSsize (specToken scan charRequested).length
            buf := (specToken scan charRequested).take
              ((specToken scan charRequested).length
                - copyResidue (specToken scan charRequested).length uncopied)
            scan := scanAfterRead scan charRequested } := by
  have hwf := h
  obtain ⟨hsep, hpos, buf, hs, hsize⟩ := h
  have hloop := readLoop_eq charRequested scan buf [] hs hsize hsep
  simp only [List.length_nil, List.nil_append, Nat.zero_add] at hloop
  have hk := specToken_length_le scan charRequested
  have hrest := specToken_length_le_rest scan charRequested
  rw [input_length scan hwf] at hrest
  unfold read
  rw [hloop]
  simp only
  generalize htok : specToken scan charRequested = tok at *
  have htake : ∀ j, j ≤ tok.length →
      (tok ++ List.replicate (charRequested - tok.length + 1) 0).take j = tok.take j := by
    intro j hj
    rw [List.take_append_of_le_length hj]
  by_cases hres : copyResidue tok.length uncopied ≠ 0
  · have hpos2 : 0 < tok.length := by
      unfold copyResidue at hres
      omega
    have hne : scan.inputProcessedChars ≠ scan.inputSize := by omega
    rw [if_pos hres, if_pos hres, htake _ (Nat.sub_le _ _)]
    simp only [scanAfterRead, htok, Option.some.injEq, ReadResult.mk.injEq, true_and]
    rw [if_neg hne, if_neg (by omega)]
    simp
  · rw [if_neg hres, if_neg hres]
    simp only [ne_eq, not_not] at hres
    rw [hres]
    by_cases hend : scan.inputProcessedChars = scan.inputSize
    · have hz : tok.length = 0 := by omega
      have hnil : tok = [] := List.length_eq_zero.mp hz
      simp [readSpecialCases, scanAfterRead, htok, hend, hnil, hs, toSsize_sizeOfInt_neg_one.2]
    · by_cases hz : tok.length = 0
      · have hnil : tok = [] := List.length_eq_zero.mp hz
        by_cases hm : 0 < charRequested
        · have hlt : scan.inputProcessedChars < scan.inputSize := by omega
          simp [readSpecialCases, scanAfterRead, htok, hend, hnil, hm, hlt, toSsize]
        · have hm0 : charRequested = 0 := by omega
          subst hm0
          simp [readSpecialCases, scanAfterRead, htok, hend, hnil, toSsize]
      · simp [readSpecialCases, scanAfterRead, htok, hend, hz]

theorem takeWhile_run {p : Byte → Bool} (t r : List Byte) (ht : ∀ a ∈ t, p a = true)
    (hr : r = [] ∨ ∃ c r2, r = c :: r2 ∧ p c = false) : (t ++ r).takeWhile p = t := by
  induction t with
  | nil =>
    rcases hr with hr | ⟨c, r2, hr, hc⟩
    · simp [hr]
    · simp [hr, hc]
  | cons a t ih =>
    have ha : p a = true := ht a (List.mem_cons_self a t)
    simp only [List.cons_append, List.takeWhile_cons, ha, if_true]
    rw [ih (fun b hb => ht b (List.mem_cons_of_mem a hb))]

theorem take_takeWhile_full {p : Byte → Bool} (t r : List Byte) (ht : ∀ a ∈ t, p a = true) :
    ((t ++ r).takeWhile p).take t.length = t := by
  induction t with
  | nil => simp
  | cons a t ih =>
    have ha : p a = true := ht a (List.mem_cons_self a t)
    simp only [List.cons_append, List.takeWhile_cons, ha, if_true, List.length_cons,
      List.take_succ_cons]
    rw [ih (fun b hb => ht b (List.mem_cons_of_mem a hb))]

theorem Ready.cursor_lt {seps : List Byte} {scan : Scanner} {c : Byte} {rest : List Byte}
    (h : Ready seps scan (c :: rest)) : scan.inputProcessedChars < scan.inputSize := by
  obtain ⟨hwf, _, hdrop, _⟩ := h
  have hlen := congrArg List.length hdrop
  simp only [List.length_drop, List.length_cons, input_length scan hwf] at hlen
  omega

theorem Ready.cursor_end {seps : List Byte} {scan : Scanner} (h : Ready seps scan []) :
    scan.inputProcessedChars = scan.inputSize := by
  obtain ⟨hwf, _, hdrop, _⟩ := h
  have hlen := congrArg List.length hdrop
  simp only [List.length_drop, List.length_nil, input_length scan hwf] at hlen
  have := hwf.2.1
  omega

theorem Ready.rest_length {seps : List Byte} {scan : Scanner} {rest : List Byte}
    (h : Ready seps scan rest) : scan.inputProcessedChars + rest.length = scan.inputSize := by
  obtain ⟨hwf, _, hdrop, _⟩ := h
  have hlen := congrArg List.length hdrop
  simp only [List.length_drop, input_length scan hwf] at hlen
  have := hwf.2.1
  omega

theorem Ready.specToken_eq {seps : List Byte} {scan : Scanner} {rest : List Byte}
    (h : Ready seps scan rest) (maxBytes : Nat) :
    specToken scan maxBytes = (rest.takeWhile (fun c => decide (c ∉ seps))).take maxBytes := by
  obtain ⟨_, hseps, hdrop, _⟩ := h
  simp only [specToken, hseps, hdrop]

theorem Ready.advance {seps : List Byte} {scan : Scanner} {rest : List Byte}
    (h : Ready seps scan rest) (k : Nat) (s : Option (List Byte)) (hs : s = scan.s)
    (hk : k ≤ rest.length) :
    Ready seps { scan with s := s, inputProcessedChars := scan.inputProcessedChars + k }
      (rest.drop k) := by
  have hlen := h.rest_length
  obtain ⟨⟨hsep, hpos, buf, hbuf, hsize⟩, hseps, hdrop, hbound⟩ := h
  subst hs
  refine ⟨⟨hsep, ?_, buf, hbuf, hsize⟩, hseps, ?_, hbound⟩
  · show scan.inputProcessedChars + k ≤ scan.inputSize
    omega
  · show (input scan).drop (scan.inputProcessedChars + k) = rest.drop k
    rw [← hdrop, List.drop_drop]

theorem read_at_end {seps : List Byte} {scan : Scanner} (h : Ready seps scan [])
    (maxBytes : Nat) :
    ∃ r, read scan maxBytes 0 = some r ∧ r.ret = -1 ∧ r.buf = [] := by
  have hend := h.cursor_end
  have htok : specToken scan maxBytes = [] := by rw [h.specToken_eq]; simp
  refine ⟨_, read_eq scan maxBytes 0 h.1, ?_, ?_⟩
  · simp [htok, copyResidue, hend]
  · simp [htok]

theorem read_separator {seps : List Byte} {scan : Scanner} {c : Byte} {rest : List Byte}
    (h : Ready seps scan (c :: rest)) (hc : c ∈ seps) (maxBytes : Nat) (hm : 0 < maxBytes) :
    ∃ r, read scan maxBytes 0 = some r ∧ r.ret = 0 ∧ r.buf = [] ∧ Ready seps r.scan rest ∧
      r.scan.inputProcessedChars = scan.inputProcessedChars + 1 := by
  have hlt := h.cursor_lt
  have hne : scan.inputProcessedChars ≠ scan.inputSize := by omega
  have htok : specToken scan maxBytes = [] := by rw [h.specToken_eq]; simp [hc]
  refine ⟨_, read_eq scan maxBytes 0 h.1, ?_, ?_, ?_, ?_⟩
  · simp [htok, copyResidue, hne, toSsize]
  · simp [htok]
  · have hadv := h.advance 1 scan.s rfl (by simp)
    simpa [scanAfterRead, htok, hne, hm, hlt] using hadv
  · simp [scanAfterRead, htok, hm, hlt]

theorem read_run {seps : List Byte} {scan : Scanner} {t rest : List Byte}
    (h : Ready seps scan (t ++ rest)) (hne : t ≠ []) (ht : ∀ a ∈ t, a ∉ seps)
    (maxBytes : Nat)
    (hstop : t.length = maxBytes ∨
      (t.length ≤ maxBytes ∧ (rest = [] ∨ ∃ c r2, rest = c :: r2 ∧ c ∈ seps))) :
    ∃ r, read scan maxBytes 0 = some r ∧ r.ret = (t.length : Int) ∧ r.buf = t ∧
      Ready seps r.scan rest ∧
      r.scan.inputProcessedChars = scan.inputProcessedChars + t.length := by
  have hlen := h.rest_length
  have hbound := h.2.2.2
  simp only [List.length_append] at hlen
  have htpos : 0 < t.length := List.length_pos.mpr hne
  have hcur : scan.inputProcessedChars ≠ scan.inputSize := by omega
  have hp : ∀ a ∈ t, (fun c => decide (c ∉ seps)) a = true := by
    intro a ha
    simpa using ht a ha
  have htok : specToken scan maxBytes = t := by
    rw [h.specToken_eq]
    rcases hstop with hfull | ⟨hle, hrest⟩
    · rw [← hfull]
      exact take_takeWhile_full t rest hp
    · have hrun : (t ++ rest).takeWhile (fun c => decide (c ∉ seps)) = t := by
        apply takeWhile_run t rest hp
        rcases hrest with hnil | ⟨c, r2, hcons, hc⟩
        · exact Or.inl hnil
        · exact Or.inr ⟨c, r2, hcons, by simpa using hc⟩
      rw [hrun, List.take_of_length_le hle]
  refine ⟨_, read_eq scan maxBytes 0 h.1, ?_, ?_, ?_, ?_⟩
  · simp only [htok, copyResidue, Nat.zero_min, ne_eq, not_true_eq_false, if_false, hcur]
    exact toSsize_of_lt _ (by omega)
  · simp [htok, copyResidue]
  · have hadv := h.advance t.length scan.s rfl (by simp)
    have hz : t.length ≠ 0 := by omega
    simpa [scanAfterRead, htok, hcur, hz] using hadv
  · have hz : t.length ≠ 0 := by omega
    simp [scanAfterRead, htok, hz]

theorem readMany_succ (maxBytes n : Nat) (scan : Scanner) (r : ReadResult)
    (outs : List (Int × List Byte)) (final : Scanner)
    (hr : read scan maxBytes 0 = some r) (hrest : readMany maxBytes n r.scan = some (outs, final)) :
    readMany maxBytes (n + 1) scan = some ((r.ret, r.buf) :: outs, final) := by
  simp [readMany, hr, hrest]

theorem ready_after_write (scan : Scanner) (line : List Byte) (hmode : scan.ioctl ≠ 0)
    (hsep : scan.separatorListLength ≤ scan.separatorList.length)
    (hlen : line.length < 2 ^ 63) :
    Ready (separators scan) (write scan line 0).scan line := by
  unfold write
  rw [if_neg hmode]
  refine ⟨⟨hsep, Nat.zero_le _, writeBuffer line 0, rfl, ?_⟩, rfl, ?_, ?_⟩
  · simp [writeLen, writeBuffer, copyResidue]
  · simp [input, writeLen, writeBuffer, copyResidue]
  · simpa [writeLen, copyResidue] using hlen

theorem takeWhile_stop {p : Byte → Bool} (l : List Byte)
    (h : (l.takeWhile p).length < l.length) :
    ∃ c, l[(l.takeWhile p).length]? = some c ∧ p c = false := by
  induction l with
  | nil => simp at h
  | cons a l ih =>
    by_cases ha : p a = true
    · simp only [List.takeWhile_cons, ha, if_true, List.length_cons] at h ⊢
      obtain ⟨c, hc, hpc⟩ := ih (by omega)
      exact ⟨c, by simpa using hc, hpc⟩
    · simp only [Bool.not_eq_true] at ha
      exact ⟨a, by simp [List.takeWhile_cons, ha], ha⟩

theorem specToken_stops_on_separator (scan : Scanner) (maxBytes : Nat) (h : WellFormed scan)
    (hk : (specToken scan maxBytes).length < maxBytes)
    (hin : scan.inputProcessedChars + (specToken scan maxBytes).length < scan.inputSize) :
    ∃ c, (input scan)[scan.inputProcessedChars + (specToken scan maxBytes).length]? = some c ∧
      isCharSeparator scan c = some 1 := by
  have hlen := input_length scan h
  have htw : specToken scan maxBytes
      = ((input scan).drop scan.inputProcessedChars).takeWhile
          (fun c => decide (c ∉ separators scan)) := by
    unfold specToken at hk ⊢
    rw [List.length_take] at hk
    exact List.take_of_length_le (by omega)
  rw [htw] at hin ⊢
  obtain ⟨c, hc, hpc⟩ := takeWhile_stop (p := fun c => decide (c ∉ separators scan))
    ((input scan).drop scan.inputProcessedChars) (by rw [List.length_drop]; omega)
  refine ⟨c, ?_, ?_⟩
  · rw [List.getElem?_drop] at hc
    exact hc
  · have hmem : c ∈ separators scan := by simpa using hpc
    rw [isCharSeparator_eq scan c h.1, if_pos hmem]

theorem notSeparator_pred (scan : Scanner)
    (h : scan.separatorListLength ≤ scan.separatorList.length) :
    (fun c => decide (isCharSeparator scan c = some 0))
      = (fun c => decide (c ∉ separators scan)) := by
  funext c
  rw [isCharSeparator_eq scan c h]
  by_cases hc : c ∈ separators scan <;> simp [hc]

theorem abcdScanner_wellFormed : WellFormed abcdScanner :=
  ⟨by decide, by decide, [97, 98, 44, 99, 100, 0], rfl, by decide⟩

theorem readMany_one_eos {seps : List Byte} {scan : Scanner} (h : Ready seps scan [])
    (maxBytes : Nat) : ∃ final, readMany maxBytes 1 scan = some ([(-1, [])], final) := by
  obtain ⟨r, hr, hret, hbuf⟩ := read_at_end h maxBytes
  refine ⟨r.scan, ?_⟩
  rw [readMany_succ maxBytes 0 scan r [] r.scan hr rfl, hret, hbuf]

theorem not_mem_separators_of_zero (scan : Scanner) (c : Byte)
    (hsep : scan.separatorListLength ≤ scan.separatorList.length)
    (h : isCharSeparator scan c = some 0) : c ∉ separators scan := by
  intro hmem
  rw [isCharSeparator_eq scan c hsep, if_pos hmem] at h
  exact absurd h (by decide)

theorem mem_separators_of_one (scan : Scanner) (c : Byte)
    (hsep : scan.separatorListLength ≤ scan.separatorList.length)
    (h : isCharSeparator scan c = some 1) : c ∈ separators scan := by
  by_contra hmem
  rw [isCharSeparator_eq scan c hsep, if_neg hmem] at h
  exact absurd h (by decide)

theorem readMany_chunks (seps : List Byte) (maxBytes : Nat) (hm : 1 ≤ maxBytes) :
    ∀ (n : Nat) (rest : List Byte) (scan : Scanner), rest.length ≤ n →
      Ready seps scan rest → (∀ c ∈ rest, c ∉ seps) →
      ∃ (chunks : List (List Byte)) (final : Scanner),
        readMany maxBytes (chunks.length + 1) scan
          = some (chunks.map (fun t => ((t.length : Int), t)) ++ [(-1, [])], final) ∧
        chunks.flatten = rest ∧
        (∀ t ∈ chunks, t ≠ [] ∧ t.length ≤ maxBytes) ∧
        (∀ t ∈ chunks.dropLast, t.length = maxBytes) := by
  intro n
  induction n with
  | zero =>
    intro rest scan hlen hready _
    have hnil : rest = [] := List.length_eq_zero.mp (by omega)
    subst hnil
    obtain ⟨final, hfinal⟩ := readMany_one_eos hready maxBytes
    exact ⟨[], final, by simpa using hfinal, rfl, by simp, by simp⟩
  | succ n ih =>
    intro rest scan hlen hready hfree
    by_cases hnil : rest = []
    · subst hnil
      obtain ⟨final, hfinal⟩ := readMany_one_eos hready maxBytes
      exact ⟨[], final, by simpa using hfinal, rfl, by simp, by simp⟩
    · have hpos : 0 < rest.length := List.length_pos.mpr hnil
      have hsplit : rest.take maxBytes ++ rest.drop maxBytes = rest := List.take_append_drop _ _
      have htlen : (rest.take maxBytes).length = min maxBytes rest.length := List.length_take _ _
      have htne : rest.take maxBytes ≠ [] := by
        intro h0
        have := congrArg List.length h0
        simp only [htlen, List.length_nil] at this
        omega
      have hready2 : Ready seps scan (rest.take maxBytes ++ rest.drop maxBytes) := by
        rw [hsplit]; exact hready
      have htfree : ∀ a ∈ rest.take maxBytes, a ∉ seps :=
        fun a ha => hfree a (List.mem_of_mem_take ha)
      have hstop : (rest.take maxBytes).length = maxBytes ∨
          ((rest.take maxBytes).length ≤ maxBytes ∧
            (rest.drop maxBytes = [] ∨ ∃ c r2, rest.drop maxBytes = c :: r2 ∧ c ∈ seps)) := by
        by_cases hle : maxBytes ≤ rest.length
        · left; omega
        · right
          refine ⟨by omega, Or.inl ?_⟩
          exact List.drop_eq_nil_of_le (by omega)
      obtain ⟨r, hr, hret, hbuf, hnext, _⟩ := read_run hready2 htne htfree maxBytes hstop
      have hdlen : (rest.drop maxBytes).length ≤ n := by
        rw [List.length_drop]; omega
      obtain ⟨chunks, final, hmany, hflat, hall, hfull⟩ :=
        ih (rest.drop maxBytes) r.scan hdlen hnext
          (fun c hc => hfree c (List.mem_of_mem_drop hc))
      refine ⟨rest.take maxBytes :: chunks, final, ?_, ?_, ?_, ?_⟩
      · rw [List.length_cons, readMany_succ maxBytes (chunks.length + 1) scan r _ final hr hmany,
          hret, hbuf]
        simp
      · rw [List.flatten_cons, hflat, hsplit]
      · intro t ht
        rcases List.mem_cons.mp ht with h1 | h1
        · subst h1
          exact ⟨htne, by omega⟩
        · exact hall t h1
      · cases chunks with
        | nil => simp
        | cons c0 cs =>
          intro t ht
          rw [List.dropLast_cons₂] at ht
          rcases List.mem_cons.mp ht with h1 | h1
          · subst h1
            have hc0 := (hall c0 (List.mem_cons_self c0 cs)).1
            have hdne : rest.drop maxBytes ≠ [] := by
              intro h0
              rw [h0, List.flatten_cons] at hflat
              exact hc0 (List.append_eq_nil.mp hflat).1
            have hdpos := List.length_pos.mpr hdne
            rw [List.length_drop] at hdpos
            omega
          · exact hfull t h1

theorem readMany_append (maxBytes : Nat) : ∀ (a b : Nat) (scan mid final : Scanner)
    (o1 o2 : List (Int × List Byte)),
    readMany maxBytes a scan = some (o1, mid) → readMany maxBytes b mid = some (o2, final) →
    readMany maxBytes (a + b) scan = some (o1 ++ o2, final) := by
  intro a
  induction a with
  | zero =>
    intro b scan mid final o1 o2 h1 h2
    simp only [readMany, Option.some.injEq, Prod.mk.injEq] at h1
    obtain ⟨ho, hmid⟩ := h1
    subst ho; subst hmid
    simpa using h2
  | succ a ih =>
    intro b scan mid final o1 o2 h1 h2
    rw [readMany] at h1
    cases hr : read scan maxBytes 0 with
    | none => rw [hr] at h1; exact Option.noConfusion h1
    | some r =>
      rw [hr] at h1
      simp only at h1
      cases hrest : readMany maxBytes a r.scan with
      | none => rw [hrest] at h1; exact Option.noConfusion h1
      | some p =>
        obtain ⟨outs, st⟩ := p
        rw [hrest] at h1
        simp only [Option.some.injEq, Prod.mk.injEq] at h1
        obtain ⟨ho, hmid⟩ := h1
        subst ho; subst hmid
        have hrec := ih b r.scan st final outs o2 hrest h2
        have hadd : a + 1 + b = (a + b) + 1 := by omega
        rw [hadd, readMany_succ maxBytes (a + b) scan r _ final hr hrec]
        rfl

theorem readMany_skip (seps : List Byte) (maxBytes : Nat) (hm : 0 < maxBytes) :
    ∀ (ss : List Byte) (scan : Scanner) (rest : List Byte),
      Ready seps scan (ss ++ rest) → (∀ c ∈ ss, c ∈ seps) →
      ∃ st, readMany maxBytes ss.length scan = some (List.replicate ss.length (0, []), st) ∧
        Ready seps st rest ∧
        st.inputProcessedChars = scan.inputProcessedChars + ss.length := by
  intro ss
  induction ss with
  | nil =>
    intro scan rest hready _
    exact ⟨scan, rfl, by simpa using hready, rfl⟩
  | cons c ss ih =>
    intro scan rest hready hss
    have hready2 : Ready seps scan (c :: (ss ++ rest)) := by simpa using hready
    obtain ⟨r, hr, hret, hbuf, hnext, hcur⟩ :=
      read_separator hready2 (hss c (List.mem_cons_self c ss)) maxBytes hm
    obtain ⟨st, hmany, hst, hpos⟩ :=
      ih r.scan rest hnext (fun a ha => hss a (List.mem_cons_of_mem c ha))
    refine ⟨st, ?_, hst, ?_⟩
    · rw [List.length_cons, readMany_succ maxBytes ss.length scan r _ st hr hmany, hret, hbuf]
      rfl
    · rw [hpos, hcur, List.length_cons]
      omega

theorem readMany_token_then_eos {seps : List Byte} {scan : Scanner} {t : List Byte}
    (h : Ready seps scan t) (hne : t ≠ []) (ht : ∀ a ∈ t, a ∉ seps) (maxBytes : Nat)
    (hm : t.length ≤ maxBytes) :
    ∃ final, readMany maxBytes 2 scan = some ([((t.length : Int), t), (-1, [])], final) := by
  have h2 : Ready seps scan (t ++ []) := by simpa using h
  obtain ⟨r, hr, hret, hbuf, hnext, _⟩ :=
    read_run h2 hne ht maxBytes (Or.inr ⟨hm, Or.inl rfl⟩)
  obtain ⟨final, hfinal⟩ := readMany_one_eos hnext maxBytes
  refine ⟨final, ?_⟩
  rw [readMany_succ maxBytes 1 scan r _ final hr hfinal, hret, hbuf]

theorem isCharSeparator_mem_separators (scan : Scanner) (ch : Byte)
    (h : scan.separatorListLength ≤ scan.separatorList.length) :
    (isCharSeparator scan ch = some 1 ↔ ch ∈ separators scan) ∧
    (isCharSeparator scan ch = some 0 ↔ ch ∉ separators scan) := by
  rw [isCharSeparator_eq scan ch h]
  by_cases hc : ch ∈ separators scan <;> simp [hc]

theorem readLoop_cursor_bound : ∀ (budget : Nat) (scan : Scanner) (loc : ReadLocals)
    (scan2 : Scanner) (loc2 : ReadLocals),
    readLoop budget scan loc = some (scan2, loc2) → loc.separatorFound = 0 →
    scan.inputProcessedChars ≤ scan.inputSize →
    scan2.inputSize = scan.inputSize ∧ scan2.inputProcessedChars ≤ scan2.inputSize ∧
      (loc2.separatorFound ≠ 0 → scan2.inputProcessedChars < scan2.inputSize) := by
  intro budget
  induction budget with
  | zero =>
    intro scan loc scan2 loc2 h hsf hle
    simp only [readLoop, Option.some.injEq, Prod.mk.injEq] at h
    obtain ⟨h1, h2⟩ := h
    subst h1; subst h2
    exact ⟨rfl, hle, fun hne => absurd hsf hne⟩
  | succ b ih =>
    intro scan loc scan2 loc2 h hsf hle
    rw [readLoop] at h
    by_cases hlt : scan.inputProcessedChars < scan.inputSize
    · rw [if_pos hlt] at h
      cases hs : scan.s with
      | none => simp [hs] at h
      | some buf =>
        cases hc : buf[scan.inputProcessedChars]? with
        | none => simp [hs, hc] at h
        | some c =>
          cases hsep : isCharSeparator scan c with
          | none => simp [hs, hc, hsep] at h
          | some found =>
            simp only [hs, hc, hsep] at h
            by_cases hfound : found = 0
            · rw [if_pos hfound] at h
              by_cases hcap : loc.numCharsProcessed + 1 < loc.currentToken.length
              · rw [if_pos hcap] at h
                have hrec := ih _ _ scan2 loc2 h hfound (by show scan.inputProcessedChars + 1 ≤ scan.inputSize; omega)
                exact hrec
              · rw [if_neg hcap] at h
                exact Option.noConfusion h
            · rw [if_neg hfound] at h
              simp only [Option.some.injEq, Prod.mk.injEq] at h
              obtain ⟨h1, h2⟩ := h
              subst h1; subst h2
              exact ⟨rfl, hle, fun _ => hlt⟩
    · rw [if_neg hlt] at h
      simp only [Option.some.injEq, Prod.mk.injEq] at h
      obtain ⟨h1, h2⟩ := h
      subst h1; subst h2
      exact ⟨rfl, hle, fun hne => absurd hsf hne⟩

theorem read_cursor_bound (scan : Scanner) (charRequested uncopied : Nat) (r : ReadResult)
    (h : read scan charRequested uncopied = some r)
    (hle : scan.inputProcessedChars ≤ scan.inputSize) :
    r.scan.inputSize = scan.inputSize ∧ r.scan.inputProcessedChars ≤ r.scan.inputSize := by
  unfold read at h
  cases hloop : readLoop charRequested scan
      { numCharsProcessed := 0, separatorFound := 0,
        currentToken := List.replicate (charRequested + 1) 0 } with
  | none => simp [hloop] at h
  | some p =>
    obtain ⟨scan1, loc⟩ := p
    obtain ⟨hsize, hcur, hfound⟩ := readLoop_cursor_bound _ _ _ _ _ hloop rfl hle
    simp only [hloop] at h
    by_cases hres : copyResidue loc.numCharsProcessed uncopied ≠ 0
    · rw [if_pos hres] at h
      simp only [Option.some.injEq] at h
      subst h
      exact ⟨hsize, hcur⟩
    · rw [if_neg hres] at h
      cases hspecial : readSpecialCases scan1 loc with
      | none => simp [hspecial] at h
      | some q =>
        obtain ⟨n, scan3⟩ := q
        simp only [hspecial, Option.some.injEq] at h
        subst h
        show scan3.inputSize = scan.inputSize ∧ scan3.inputProcessedChars ≤ scan3.inputSize
        unfold readSpecialCases at hspecial
        by_cases hend : scan1.inputProcessedChars = scan1.inputSize ∧ loc.numCharsProcessed = 0
        · cases hs : scan1.s with
          | none => simp [hend, hs] at hspecial
          | some buf =>
            have hnot : ¬ scan1.inputProcessedChars < scan1.inputSize := by omega
            have hzero : loc.separatorFound = 0 := by
              by_contra hne
              exact hnot (hfound hne)
            simp [hend, hs, hzero] at hspecial
            obtain ⟨_, h3⟩ := hspecial
            subst h3
            exact ⟨hsize, Nat.le_refl _⟩
        · simp only [hend, if_false] at hspecial
          by_cases hskip : loc.separatorFound ≠ 0 ∧ loc.numCharsProcessed = 0
          · rw [if_pos hskip] at hspecial
            simp only [Option.some.injEq, Prod.mk.injEq] at hspecial
            obtain ⟨_, h3⟩ := hspecial
            subst h3
            have := hfound hskip.1
            exact ⟨hsize, by show scan1.inputProcessedChars + 1 ≤ scan1.inputSize; omega⟩
          · rw [if_neg hskip] at hspecial
            simp only [Option.some.injEq, Prod.mk.injEq] at hspecial
            obtain ⟨_, h3⟩ := hspecial
            subst h3
            exact ⟨hsize, hcur⟩

theorem applyCall_cursor_bound (scan next : Scanner) (call : Call)
    (h : applyCall scan call = some next)
    (hle : scan.inputProcessedChars ≤ scan.inputSize) :
    next.inputProcessedChars ≤ next.inputSize := by
  cases call with
  | read charRequested uncopied =>
    simp only [applyCall] at h
    cases hr : read scan charRequested uncopied with
    | none => simp [hr] at h
    | some r =>
      simp only [hr, Option.map_some', Option.some.injEq] at h
      subst h
      exact (read_cursor_bound scan charRequested uncopied r hr hle).2
  | ioctl cmd arg =>
    simp only [applyCall, Option.some.injEq] at h
    subst h
    unfold ioctl
    by_cases hc : cmd = 0 ∧ arg = 0
    · rw [if_pos hc]; exact hle
    · rw [if_neg hc]; exact hle
  | write line uncopied =>
    simp only [applyCall, Option.some.injEq] at h
    subst h
    unfold write
    by_cases hmode : scan.ioctl = 0
    · rw [if_pos hmode]; exact hle
    · rw [if_neg hmode]; exact Nat.zero_le _

theorem runCalls_cursor_bound : ∀ (calls : List Call) (scan final : Scanner),
    runCalls scan calls = some final → scan.inputProcessedChars ≤ scan.inputSize →
    final.inputProcessedChars ≤ final.inputSize := by
  intro calls
  induction calls with
  | nil =>
    intro scan final h hle
    simp only [runCalls, Option.some.injEq] at h
    subst h
    exact hle
  | cons call rest ih =>
    intro scan final h hle
    rw [runCalls] at h
    cases hstep : applyCall scan call with
    | none => simp [hstep] at h
    | some next =>
      simp only [hstep] at h
      exact ih next final h (applyCall_cursor_bound scan next call hstep hle)

theorem token_append_drop (p : Byte → Bool) (l : List Byte) (m : Nat) :
    (l.takeWhile p).take m ++ l.drop ((l.takeWhile p).take m).length = l :=
  List.prefix_iff_eq_append.mp
    ((List.take_prefix m (l.takeWhile p)).trans (List.takeWhile_prefix p))

theorem token_all (p : Byte → Bool) (l : List Byte) (m : Nat) :
    ∀ a ∈ (l.takeWhile p).take m, p a = true :=
  fun _ ha => List.mem_takeWhile_imp (List.mem_of_mem_take ha)

theorem token_nil_head (p : Byte → Bool) (l : List Byte) (m : Nat) (hm : 1 ≤ m)
    (hne : l ≠ []) (ht : (l.takeWhile p).take m = []) :
    ∃ c r, l = c :: r ∧ p c = false := by
  cases l with
  | nil => exact absurd rfl hne
  | cons c r =>
    refine ⟨c, r, rfl, ?_⟩
    by_contra hpc
    have hpc2 : p c = true := by simpa using hpc
    obtain ⟨m2, hm2⟩ : ∃ m2, m = m2 + 1 := ⟨m - 1, by omega⟩
    rw [hm2, List.takeWhile_cons, if_pos hpc2, List.take_succ_cons] at ht
    exact List.noConfusion ht

theorem split_token (p : Byte → Bool) (rest : List Byte) (m : Nat) (hm : 1 ≤ m)
    (hne : rest ≠ []) :
    max ((rest.takeWhile p).take m).length 1 ≤ rest.length ∧
    rest.filter p = (rest.takeWhile p).take m
      ++ (rest.drop (max ((rest.takeWhile p).take m).length 1)).filter p ∧
    (rest.filter (fun c => !p c)).length
      = (if ((rest.takeWhile p).take m).length = 0 then 1 else 0)
        + ((rest.drop (max ((rest.takeWhile p).take m).length 1)).filter
            (fun c => !p c)).length := by
  have happ := token_append_drop p rest m
  have hall := token_all p rest m
  have hpos : 0 < rest.length := List.length_pos.mpr hne
  generalize htok : (rest.takeWhile p).take m = t at happ hall
  by_cases hz : t.length = 0
  · have hnil : t = [] := List.length_eq_zero.mp hz
    subst hnil
    obtain ⟨c, r, hcons, hpc⟩ := token_nil_head p rest m hm hne htok
    subst hcons
    simp [hpc, Nat.add_comm]
  · have hk : max t.length 1 = t.length := by omega
    have hlen : t.length ≤ rest.length := by
      have := congrArg List.length happ
      rw [List.length_append] at this
      omega
    rw [hk, if_neg hz]
    refine ⟨hlen, ?_, ?_⟩
    · conv_lhs => rw [← happ]
      rw [List.filter_append, List.filter_eq_self.mpr hall]
    · conv_lhs => rw [← happ]
      have hnone : t.filter (fun c => !p c) = [] := by
        rw [List.filter_eq_nil_iff]
        intro a ha
        simp [hall a ha]
      rw [List.filter_append, hnone]
      simp

theorem read_step {seps : List Byte} {scan : Scanner} {rest : List Byte}
    (h : Ready seps scan rest) (hne : rest ≠ []) (maxBytes : Nat) (hm : 1 ≤ maxBytes) :
    ∃ r, read scan maxBytes 0 = some r ∧
      r.buf = (rest.takeWhile (fun c => decide (c ∉ seps))).take maxBytes ∧
      r.ret = (r.buf.length : Int) ∧
      Ready seps r.scan (rest.drop (max r.buf.length 1)) ∧
      r.scan.inputProcessedChars = scan.inputProcessedChars + max r.buf.length 1 := by
  have hlen := h.rest_length
  have hbound := h.2.2.2
  have hpos : 0 < rest.length := List.length_pos.mpr hne
  have hcur : scan.inputProcessedChars ≠ scan.inputSize := by omega
  have hlt : scan.inputProcessedChars < scan.inputSize := by omega
  have htok := h.specToken_eq maxBytes
  have hk := (split_token (fun c => decide (c ∉ seps)) rest maxBytes hm hne).1
  generalize (rest.takeWhile (fun c => decide (c ∉ seps))).take maxBytes = t at htok hk
  have hbuf : t.take (t.length - copyResidue t.length 0) = t := by simp [copyResidue]
  have hscan : scanAfterRead scan maxBytes
      = { scan with s := scan.s,
                    inputProcessedChars := scan.inputProcessedChars + max t.length 1 } := by
    by_cases hz : t.length = 0
    · have hmpos : 0 < maxBytes := by omega
      simp [scanAfterRead, htok, hcur, hz, hmpos, hlt]
    · have hmax : max t.length 1 = t.length := by omega
      simp [scanAfterRead, htok, hcur, hz, hmax]
  refine ⟨_, read_eq scan maxBytes 0 h.1, ?_, ?_, ?_, ?_⟩
  · simp only [htok]
    exact hbuf
  · simp only [htok, copyResidue, Nat.zero_min, ne_eq, not_true_eq_false, if_false,
      hcur, Nat.sub_zero, List.take_length]
    exact toSsize_of_lt t.length (by omega)
  · simp only [htok, hbuf, hscan]
    exact h.advance (max t.length 1) scan.s rfl hk
  · simp only [htok, hbuf, hscan]

theorem separator_pred (scan : Scanner)
    (h : scan.separatorListLength ≤ scan.separatorList.length) :
    (fun c => decide (isCharSeparator scan c = some 1))
      = (fun c => !decide (c ∉ separators scan)) := by
  funext c
  rw [isCharSeparator_eq scan c h]
  by_cases hc : c ∈ separators scan <;> simp [hc]

theorem readMany_all (seps : List Byte) (maxBytes : Nat) (hm : 1 ≤ maxBytes) :
    ∀ (n : Nat) (rest : List Byte) (scan : Scanner), rest.length ≤ n → Ready seps scan rest →
      ∃ (outs : List (Int × List Byte)) (final : Scanner),
        readMany maxBytes (outs.length + 1) scan = some (outs ++ [(-1, [])], final) ∧
        (∀ o ∈ outs, o.1 = (o.2.length : Int)) ∧
        (outs.map Prod.snd).flatten = rest.filter (fun c => decide (c ∉ seps)) ∧
        (outs.filter (fun o => decide (o.1 = 0))).length
          = (rest.filter (fun c => !decide (c ∉ seps))).length ∧
        outs.length ≤ rest.length := by
  intro n
  induction n with
  | zero =>
    intro rest scan hlen hready
    have hnil : rest = [] := List.length_eq_zero.mp (by omega)
    subst hnil
    obtain ⟨final, hfinal⟩ := readMany_one_eos hready maxBytes
    exact ⟨[], final, by simpa using hfinal, by simp, by simp, by simp, by simp⟩
  | succ n ih =>
    intro rest scan hlen hready
    by_cases hnil : rest = []
    · subst hnil
      obtain ⟨final, hfinal⟩ := readMany_one_eos hready maxBytes
      exact ⟨[], final, by simpa using hfinal, by simp, by simp, by simp, by simp⟩
    · obtain ⟨r, hr, hbuf, hret, hnext, _⟩ := read_step hready hnil maxBytes hm
      obtain ⟨hk, hfilter, hcount⟩ :=
        split_token (fun c => decide (c ∉ seps)) rest maxBytes hm hnil
      rw [← hbuf] at hk hfilter hcount
      have hdlen : (rest.drop (max r.buf.length 1)).length ≤ n := by
        rw [List.length_drop]; omega
      obtain ⟨outs, final, hmany, hall, hflat, hcnt, hle⟩ :=
        ih (rest.drop (max r.buf.length 1)) r.scan hdlen hnext
      refine ⟨(r.ret, r.buf) :: outs, final, ?_, ?_, ?_, ?_, ?_⟩
      · rw [List.length_cons, readMany_succ maxBytes (outs.length + 1) scan r _ final hr hmany]
        rfl
      · intro o ho
        rcases List.mem_cons.mp ho with h1 | h1
        · subst h1; exact hret
        · exact hall o h1
      · rw [List.map_cons, List.flatten_cons, hflat, hfilter]
      · have hzero : (r.ret = 0) ↔ r.buf.length = 0 := by
          rw [hret]; omega
        rw [hcount, ← hcnt, List.filter_cons]
        by_cases hz : r.buf.length = 0
        · have hr0 : r.ret = 0 := hzero.mpr hz
          simp [hr0, hz, Nat.add_comm]
        · have hr0 : ¬ r.ret = 0 := fun h0 => hz (hzero.mp h0)
          simp [hr0, hz]
      · rw [List.length_drop] at hle
        rw [List.length_cons]
        omega

theorem first_end_of_stream_within_length (scan : Scanner) (line : List Byte) (maxBytes : Nat)
    (hmode : scan.ioctl ≠ 0) (hsep : scan.separatorListLength ≤ scan.separatorList.length)
    (hm : 1 ≤ maxBytes) (hlen : line.length < 2 ^ 63) :
    ∃ (outs : List (Int × List Byte)) (final : Scanner),
      readMany maxBytes (outs.length + 1) (write scan line 0).scan
        = some (outs ++ [(-1, [])], final) ∧
      (∀ o ∈ outs, o.1 ≠ -1) ∧ outs.length ≤ line.length := by
  obtain ⟨outs, final, hmany, hall, _, _, hle⟩ :=
    readMany_all (separators scan) maxBytes hm line.length line (write scan line 0).scan
      (Nat.le_refl _) (ready_after_write scan line hmode hsep hlen)
  refine ⟨outs, final, hmany, ?_, hle⟩
  intro o ho
  rw [hall o ho]
  omega

theorem read_of_released_input (scan : Scanner) (charRequested uncopied : Nat)
    (hs : scan.s = none) (hend : scan.inputProcessedChars = scan.inputSize) :
    read scan charRequested uncopied = none := by
  have hnot : ¬ scan.inputProcessedChars < scan.inputSize := by omega
  cases charRequested with
  | zero => simp [read, readLoop, copyResidue, readSpecialCases, hend, hs]
  | succ m => simp [read, readLoop, hnot, copyResidue, readSpecialCases, hend, hs]

/-! ## The claims -/

/-- Claim C1. On a well-formed session (`cursor ≤ length(input)`), for every
separator set and every `maxBytes`, `read` delivers exactly the longest prefix
of the unread input that holds no separator character, cut to `maxBytes` bytes;
so the token has at most `maxBytes` bytes and none of them is a separator. -/
theorem read_delivers_longest_prefix (scan : Scanner) (maxBytes : Nat) (h : WellFormed scan) :
    ∃ r, read scan maxBytes 0 = some r ∧
      r.buf = (((input scan).drop scan.inputProcessedChars).takeWhile
          (fun c => decide (isCharSeparator scan c = some 0))).take maxBytes ∧
      r.buf.length ≤ maxBytes ∧
      ∀ c ∈ r.buf, isCharSeparator scan c = some 0 := by
  have hbuf : (specToken scan maxBytes).take
      ((specToken scan maxBytes).length - copyResidue (specToken scan maxBytes).length 0)
        = specToken scan maxBytes := by
    simp [copyResidue]
  refine ⟨_, read_eq scan maxBytes 0 h, ?_, ?_, ?_⟩
  · rw [notSeparator_pred scan h.1]
    exact hbuf
  · rw [hbuf]
    exact specToken_length_le scan maxBytes
  · rw [hbuf]
    intro c hc
    have hc2 := List.mem_takeWhile_imp (List.mem_of_mem_take hc)
    have hmem : c ∉ separators scan := by simpa using hc2
    rw [isCharSeparator_eq scan c h.1, if_neg hmem]

theorem read_delivers_longest_prefix_witness :
    WellFormed abcdScanner ∧
    ∃ r, read abcdScanner 10 0 = some r ∧
      r.buf = (((input abcdScanner).drop abcdScanner.inputProcessedChars).takeWhile
          (fun c => decide (isCharSeparator abcdScanner c = some 0))).take 10 ∧
      r.buf.length ≤ 10 ∧
      ∀ c ∈ r.buf, isCharSeparator abcdScanner c = some 0 :=
  ⟨abcdScanner_wellFormed, read_delivers_longest_prefix abcdScanner 10 abcdScanner_wellFormed⟩

/-- Claim C2. On a well-formed session `read` leaves the mode flag, the
separator list and its length and the input size as they were; the input buffer
is untouched unless the call reports end-of-stream, where it is released.  The
new cursor is the old cursor plus the number of bytes produced, plus one exactly
when nothing was produced and the scan stopped on a separator; a separator found
after at least one produced byte stays under the cursor; the cursor never
decreases. -/
theorem read_changes_only_cursor (scan : Scanner) (maxBytes : Nat) (h : WellFormed scan) :
    ∃ r, read scan maxBytes 0 = some r ∧
      r.scan.ioctl = scan.ioctl ∧
      r.scan.separatorList = scan.separatorList ∧
      r.scan.separatorListLength = scan.separatorListLength ∧
      r.scan.inputSize = scan.inputSize ∧
      r.scan.s = (if scan.inputProcessedChars = scan.inputSize then none else scan.s) ∧
      (r.buf.length = 0 ∧ stoppedOnSeparator scan maxBytes r.buf.length →
        r.scan.inputProcessedChars = scan.inputProcessedChars + r.buf.length + 1) ∧
      (¬ (r.buf.length = 0 ∧ stoppedOnSeparator scan maxBytes r.buf.length) →
        r.scan.inputProcessedChars = scan.inputProcessedChars + r.buf.length) ∧
      (0 < r.buf.length → stoppedOnSeparator scan maxBytes r.buf.length →
        ∃ c, (input scan)[r.scan.inputProcessedChars]? = some c ∧
          isCharSeparator scan c = some 1) ∧
      scan.inputProcessedChars ≤ r.scan.inputProcessedChars := by
  have hbuf : (specToken scan maxBytes).take
      ((specToken scan maxBytes).length - copyResidue (specToken scan maxBytes).length 0)
        = specToken scan maxBytes := by
    simp [copyResidue]
  have hlen := input_length scan h
  refine ⟨_, read_eq scan maxBytes 0 h, rfl, rfl, rfl, rfl, rfl, ?_, ?_, ?_, ?_⟩
  · simp only [hbuf]
    rintro ⟨hz, hlt, c, hc, _⟩
    have hin : scan.inputProcessedChars + (specToken scan maxBytes).length
        < (input scan).length := by
      by_contra hcon
      rw [List.getElem?_eq_none (by omega)] at hc
      exact Option.noConfusion hc
    have hcond : (specToken scan maxBytes).length = 0 ∧ 0 < maxBytes ∧
        scan.inputProcessedChars < scan.inputSize := ⟨hz, by omega, by omega⟩
    simp only [scanAfterRead, if_pos hcond]
  · simp only [hbuf]
    intro hnot
    have hcond : ¬ ((specToken scan maxBytes).length = 0 ∧ 0 < maxBytes ∧
        scan.inputProcessedChars < scan.inputSize) := by
      rintro ⟨hz, hm, hlt⟩
      apply hnot
      refine ⟨hz, by omega, ?_⟩
      exact specToken_stops_on_separator scan maxBytes h (by omega) (by omega)
    simp only [scanAfterRead, if_neg hcond, Nat.add_zero]
  · simp only [hbuf]
    rintro hpos ⟨_, c, hc, hsep⟩
    have hcond : ¬ ((specToken scan maxBytes).length = 0 ∧ 0 < maxBytes ∧
        scan.inputProcessedChars < scan.inputSize) := by
      rintro ⟨hz, _, _⟩
      omega
    refine ⟨c, ?_, hsep⟩
    simpa only [scanAfterRead, if_neg hcond, Nat.add_zero] using hc
  · simp only [scanAfterRead]
    omega

theorem read_changes_only_cursor_witness :
    WellFormed abcdScanner ∧
    ∃ r, read abcdScanner 10 0 = some r ∧
      r.scan.ioctl = abcdScanner.ioctl ∧
      r.scan.separatorList = abcdScanner.separatorList ∧
      r.scan.separatorListLength = abcdScanner.separatorListLength ∧
      r.scan.inputSize = abcdScanner.inputSize ∧
      r.scan.s = (if abcdScanner.inputProcessedChars = abcdScanner.inputSize then none
        else abcdScanner.s) ∧
      (r.buf.length = 0 ∧ stoppedOnSeparator abcdScanner 10 r.buf.length →
        r.scan.inputProcessedChars = abcdScanner.inputProcessedChars + r.buf.length + 1) ∧
      (¬ (r.buf.length = 0 ∧ stoppedOnSeparator abcdScanner 10 r.buf.length) →
        r.scan.inputProcessedChars = abcdScanner.inputProcessedChars + r.buf.length) ∧
      (0 < r.buf.length → stoppedOnSeparator abcdScanner 10 r.buf.length →
        ∃ c, (input abcdScanner)[r.scan.inputProcessedChars]? = some c ∧
          isCharSeparator abcdScanner c = some 1) ∧
      abcdScanner.inputProcessedChars ≤ r.scan.inputProcessedChars :=
  ⟨abcdScanner_wellFormed, read_changes_only_cursor abcdScanner 10 abcdScanner_wellFormed⟩

/-- Claim C3. On a well-formed session whose input size fits a signed 64-bit
count, for every `maxBytes` (0 included) `read` returns the end-of-stream value
exactly when the cursor is at the end of the input on entry.  That value is
`-1`: the `-1` stored in the `size_t` is `2^64 - 1` and comes back as `-1`
through the `ssize_t` return.  Otherwise the result is the length of the
delivered token, between 0 and `maxBytes`. -/
theorem read_end_of_stream_iff (scan : Scanner) (maxBytes : Nat) (h : WellFormed scan)
    (hsize : scan.inputSize < 2 ^ 63) :
    ∃ r, read scan maxBytes 0 = some r ∧
      (r.ret = -1 ↔ scan.inputProcessedChars = scan.inputSize) ∧
      (scan.inputProcessedChars ≠ scan.inputSize →
        r.ret = (r.buf.length : Int) ∧ 0 ≤ r.ret ∧ r.ret ≤ (maxBytes : Int)) ∧
      sizeOfInt (-1) = 2 ^ 64 - 1 ∧ toSsize (sizeOfInt (-1)) = -1 := by
  have hbuf : (specToken scan maxBytes).take
      ((specToken scan maxBytes).length - copyResidue (specToken scan maxBytes).length 0)
        = specToken scan maxBytes := by
    simp [copyResidue]
  have hk := specToken_length_le scan maxBytes
  have hrest := specToken_length_le_rest scan maxBytes
  rw [input_length scan h] at hrest
  have hpos := h.2.1
  have hto : toSsize (specToken scan maxBytes).length = ((specToken scan maxBytes).length : Int) :=
    toSsize_of_lt _ (by omega)
  have hres : copyResidue (specToken scan maxBytes).length 0 = 0 := by simp [copyResidue]
  refine ⟨_, read_eq scan maxBytes 0 h, ?_, ?_, toSsize_sizeOfInt_neg_one.1,
    toSsize_sizeOfInt_neg_one.2⟩
  · simp only [hres, ne_eq, not_true_eq_false, if_false]
    by_cases hend : scan.inputProcessedChars = scan.inputSize
    · simp [hend]
    · simp only [hend, if_false, hto, iff_false]
      omega
  · intro hend
    simp only [hres, ne_eq, not_true_eq_false, if_false, hend, hto, Nat.sub_zero,
      List.take_length, true_and]
    exact ⟨by omega, by omega⟩

theorem read_end_of_stream_iff_witness :
    (WellFormed abcdScanner ∧ abcdScanner.inputSize < 2 ^ 63) ∧
    ∃ r, read abcdScanner 0 0 = some r ∧
      (r.ret = -1 ↔ abcdScanner.inputProcessedChars = abcdScanner.inputSize) ∧
      (abcdScanner.inputProcessedChars ≠ abcdScanner.inputSize →
        r.ret = (r.buf.length : Int) ∧ 0 ≤ r.ret ∧ r.ret ≤ ((0 : Nat) : Int)) ∧
      sizeOfInt (-1) = 2 ^ 64 - 1 ∧ toSsize (sizeOfInt (-1)) = -1 :=
  ⟨⟨abcdScanner_wellFormed, by decide⟩,
    read_end_of_stream_iff abcdScanner 0 abcdScanner_wellFormed (by decide)⟩

/-- Claim C4. For every input without separator characters and every
`maxBytes ≥ 1`, after the input is supplied by a successful `write`, repeated
reads return chunks of exactly `maxBytes` bytes, except possibly the last one,
which is non-empty and not longer, followed by end-of-stream (`-1`); each chunk is
returned with its length, and the chunks concatenated are the input. -/
theorem read_chunks_of_separator_free_input (scan : Scanner) (line : List Byte)
    (maxBytes : Nat) (hmode : scan.ioctl ≠ 0)
    (hsep : scan.separatorListLength ≤ scan.separatorList.length)
    (hfree : ∀ c ∈ line, isCharSeparator scan c = some 0)
    (hm : 1 ≤ maxBytes) (hlen : line.length < 2 ^ 63) :
    ∃ (chunks : List (List Byte)) (final : Scanner),
      readMany maxBytes (chunks.length + 1) (write scan line 0).scan
        = some (chunks.map (fun t => ((t.length : Int), t)) ++ [(-1, [])], final) ∧
      chunks.flatten = line ∧
      (∀ t ∈ chunks, t ≠ [] ∧ t.length ≤ maxBytes) ∧
      (∀ t ∈ chunks.dropLast, t.length = maxBytes) :=
  readMany_chunks (separators scan) maxBytes hm line.length line (write scan line 0).scan
    (Nat.le_refl _) (ready_after_write scan line hmode hsep hlen)
    (fun c hc => not_mem_separators_of_zero scan c hsep (hfree c hc))

theorem read_chunks_of_separator_free_input_witness :
    (inputModeScanner.ioctl ≠ 0 ∧
      inputModeScanner.separatorListLength ≤ inputModeScanner.separatorList.length ∧
      (∀ c ∈ [97, 98, 99, 100, 101], isCharSeparator inputModeScanner c = some 0) ∧
      1 ≤ 2 ∧ [97, 98, 99, 100, 101].length < 2 ^ 63) ∧
    ∃ (chunks : List (List Byte)) (final : Scanner),
      readMany 2 (chunks.length + 1) (write inputModeScanner [97, 98, 99, 100, 101] 0).scan
        = some (chunks.map (fun t => ((t.length : Int), t)) ++ [(-1, [])], final) ∧
      chunks.flatten = [97, 98, 99, 100, 101] ∧
      (∀ t ∈ chunks, t ≠ [] ∧ t.length ≤ 2) ∧
      (∀ t ∈ chunks.dropLast, t.length = 2) :=
  ⟨⟨by decide, by decide, by decide, by decide, by decide⟩,
    read_chunks_of_separator_free_input inputModeScanner [97, 98, 99, 100, 101] 2
      (by decide) (by decide) (by decide) (by decide) (by decide)⟩

/-- Claim C5. For non-empty separator-free byte strings `x` and `y`, a separator
character `c` and `maxBytes ≥ max |x| |y|`, after `x ++ [c] ++ y` is supplied by
a successful `write`, four successive reads return `x` with its length, the
empty token with length 0 (the cursor then stands behind `c`), `y` with its
length, and end-of-stream. -/
theorem read_token_separator_token (scan : Scanner) (x y : List Byte) (c : Byte)
    (maxBytes : Nat) (hmode : scan.ioctl ≠ 0)
    (hsep : scan.separatorListLength ≤ scan.separatorList.length)
    (hx : x ≠ []) (hy : y ≠ [])
    (hxfree : ∀ a ∈ x, isCharSeparator scan a = some 0)
    (hyfree : ∀ a ∈ y, isCharSeparator scan a = some 0)
    (hc : isCharSeparator scan c = some 1)
    (hm : max x.length y.length ≤ maxBytes)
    (hlen : (x ++ [c] ++ y).length < 2 ^ 63) :
    (∃ final, readMany maxBytes 4 (write scan (x ++ [c] ++ y) 0).scan
      = some ([((x.length : Int), x), (0, []), ((y.length : Int), y), (-1, [])], final)) ∧
    (∃ mid, readMany maxBytes 2 (write scan (x ++ [c] ++ y) 0).scan
      = some ([((x.length : Int), x), (0, [])], mid) ∧
      mid.inputProcessedChars = x.length + 1) := by
  have hready := ready_after_write scan (x ++ [c] ++ y) hmode hsep hlen
  have hcur0 : (write scan (x ++ [c] ++ y) 0).scan.inputProcessedChars = 0 := by
    unfold write; rw [if_neg hmode]
  have hready1 : Ready (separators scan) (write scan (x ++ [c] ++ y) 0).scan (x ++ c :: y) := by
    simpa using hready
  have hcmem := mem_separators_of_one scan c hsep hc
  have hxpos : 0 < x.length := List.length_pos.mpr hx
  obtain ⟨r1, hr1, hret1, hbuf1, hnext1, hcur1⟩ :=
    read_run hready1 hx (fun a ha => not_mem_separators_of_zero scan a hsep (hxfree a ha))
      maxBytes (Or.inr ⟨by omega, Or.inr ⟨c, y, rfl, hcmem⟩⟩)
  obtain ⟨r2, hr2, hret2, hbuf2, hnext2, hcur2⟩ := read_separator hnext1 hcmem maxBytes (by omega)
  obtain ⟨final, hfinal⟩ := readMany_token_then_eos hnext2 hy
    (fun a ha => not_mem_separators_of_zero scan a hsep (hyfree a ha)) maxBytes (by omega)
  have h2 : readMany maxBytes 2 (write scan (x ++ [c] ++ y) 0).scan
      = some ([((x.length : Int), x), (0, [])], r2.scan) := by
    rw [readMany_succ maxBytes 1 _ r1 [(r2.ret, r2.buf)] r2.scan hr1
      (readMany_succ maxBytes 0 _ r2 [] r2.scan hr2 rfl), hret1, hbuf1, hret2, hbuf2]
  refine ⟨⟨final, ?_⟩, ⟨r2.scan, h2, ?_⟩⟩
  · exact readMany_append maxBytes 2 2 _ r2.scan final _ _ h2 hfinal
  · rw [hcur2, hcur1, hcur0]
    omega

theorem read_token_separator_token_witness :
    (inputModeScanner.ioctl ≠ 0 ∧
      inputModeScanner.separatorListLength ≤ inputModeScanner.separatorList.length ∧
      ([97, 98] : List Byte) ≠ [] ∧ ([99, 100] : List Byte) ≠ [] ∧
      (∀ a ∈ [97, 98], isCharSeparator inputModeScanner a = some 0) ∧
      (∀ a ∈ [99, 100], isCharSeparator inputModeScanner a = some 0) ∧
      isCharSeparator inputModeScanner 44 = some 1 ∧
      max ([97, 98] : List Byte).length ([99, 100] : List Byte).length ≤ 10 ∧
      (([97, 98] : List Byte) ++ [44] ++ [99, 100]).length < 2 ^ 63) ∧
    ((∃ final, readMany 10 4 (write inputModeScanner ([97, 98] ++ [44] ++ [99, 100]) 0).scan
      = some ([((([97, 98] : List Byte).length : Int), [97, 98]), (0, []),
          ((([99, 100] : List Byte).length : Int), [99, 100]), (-1, [])], final)) ∧
    (∃ mid, readMany 10 2 (write inputModeScanner ([97, 98] ++ [44] ++ [99, 100]) 0).scan
      = some ([((([97, 98] : List Byte).length : Int), [97, 98]), (0, [])], mid) ∧
      mid.inputProcessedChars = ([97, 98] : List Byte).length + 1)) :=
  ⟨⟨by decide, by decide, by decide, by decide, by decide, by decide, by decide, by decide,
      by decide⟩,
    read_token_separator_token inputModeScanner [97, 98] [99, 100] 44 10 (by decide)
      (by decide) (by decide) (by decide) (by decide) (by decide) (by decide) (by decide)
      (by decide)⟩

/-- Claim C6. For a string `ss` of `n` separator characters followed by a
non-empty separator-free string `t` and `maxBytes ≥ |t|`, after the input is
supplied by a successful `write` the first `n` reads each return the zero-length
token (never end-of-stream) and each moves the cursor by exactly one, the next
read returns `t` with its length, and the one after returns end-of-stream. -/
theorem read_skips_leading_separators (scan : Scanner) (ss t : List Byte) (maxBytes : Nat)
    (hmode : scan.ioctl ≠ 0)
    (hsep : scan.separatorListLength ≤ scan.separatorList.length)
    (hss : ∀ c ∈ ss, isCharSeparator scan c = some 1)
    (ht : t ≠ []) (htfree : ∀ a ∈ t, isCharSeparator scan a = some 0)
    (hm : t.length ≤ maxBytes) (hlen : (ss ++ t).length < 2 ^ 63) :
    (∃ final, readMany maxBytes (ss.length + 2) (write scan (ss ++ t) 0).scan
      = some (List.replicate ss.length (0, []) ++ [((t.length : Int), t), (-1, [])], final)) ∧
    (∀ k, k ≤ ss.length →
      ∃ st, readMany maxBytes k (write scan (ss ++ t) 0).scan
          = some (List.replicate k (0, []), st) ∧
        st.inputProcessedChars = k) := by
  have hready := ready_after_write scan (ss ++ t) hmode hsep hlen
  have hcur0 : (write scan (ss ++ t) 0).scan.inputProcessedChars = 0 := by
    unfold write; rw [if_neg hmode]
  have htpos : 0 < t.length := List.length_pos.mpr ht
  have hmpos : 0 < maxBytes := by omega
  have hssmem : ∀ c ∈ ss, c ∈ separators scan :=
    fun c hc => mem_separators_of_one scan c hsep (hss c hc)
  constructor
  · obtain ⟨st, hmany, hst, _⟩ :=
      readMany_skip (separators scan) maxBytes hmpos ss _ t hready hssmem
    obtain ⟨final, hfinal⟩ := readMany_token_then_eos hst ht
      (fun a ha => not_mem_separators_of_zero scan a hsep (htfree a ha)) maxBytes hm
    exact ⟨final, readMany_append maxBytes ss.length 2 _ st final _ _ hmany hfinal⟩
  · intro k hk
    have hsplit : ss.take k ++ (ss.drop k ++ t) = ss ++ t := by
      rw [← List.append_assoc, List.take_append_drop]
    have hklen : (ss.take k).length = k := by
      rw [List.length_take]; omega
    have hready2 : Ready (separators scan) (write scan (ss ++ t) 0).scan
        (ss.take k ++ (ss.drop k ++ t)) := by
      rw [hsplit]; exact hready
    obtain ⟨st, hmany, _, hpos⟩ :=
      readMany_skip (separators scan) maxBytes hmpos (ss.take k) _ (ss.drop k ++ t) hready2
        (fun c hc => hssmem c (List.mem_of_mem_take hc))
    rw [hklen] at hmany hpos
    exact ⟨st, hmany, by rw [hpos, hcur0]; omega⟩

theorem read_skips_leading_separators_witness :
    (inputModeScanner.ioctl ≠ 0 ∧
      inputModeScanner.separatorListLength ≤ inputModeScanner.separatorList.length ∧
      (∀ c ∈ [44, 44], isCharSeparator inputModeScanner c = some 1) ∧
      ([97] : List Byte) ≠ [] ∧
      (∀ a ∈ [97], isCharSeparator inputModeScanner a = some 0) ∧
      ([97] : List Byte).length ≤ 10 ∧ (([44, 44] : List Byte) ++ [97]).length < 2 ^ 63) ∧
    ((∃ final, readMany 10 (([44, 44] : List Byte).length + 2)
        (write inputModeScanner ([44, 44] ++ [97]) 0).scan
      = some (List.replicate ([44, 44] : List Byte).length (0, [])
          ++ [((([97] : List Byte).length : Int), [97]), (-1, [])], final)) ∧
    (∀ k, k ≤ ([44, 44] : List Byte).length →
      ∃ st, readMany 10 k (write inputModeScanner ([44, 44] ++ [97]) 0).scan
          = some (List.replicate k (0, []), st) ∧
        st.inputProcessedChars = k)) :=
  ⟨⟨by decide, by decide, by decide, by decide, by decide, by decide, by decide⟩,
    read_skips_leading_separators inputModeScanner [44, 44] [97] 10 (by decide) (by decide)
      (by decide) (by decide) (by decide) (by decide) (by decide)⟩

/-- Claim C7. In the mode that takes input, a `write` of zero bytes succeeds
(returns 0) and the first `read` afterwards returns end-of-stream (`-1`) without
delivering a byte, for every separator list and every `maxBytes`. -/
theorem read_after_empty_input (scan : Scanner) (maxBytes uncopiedW uncopiedR : Nat)
    (hmode : scan.ioctl ≠ 0) :
    (write scan [] uncopiedW).ret = 0 ∧
    ∃ r, read (write scan [] uncopiedW).scan maxBytes uncopiedR = some r ∧
      r.ret = -1 ∧ r.buf = [] := by
  have hw : write scan [] uncopiedW
      = { ret := 0
          scan := { scan with s := some [0], inputSize := 0, inputProcessedChars := 0 } } := by
    unfold write
    rw [if_neg hmode]
    simp [writeLen, writeBuffer, copyResidue, toSsize]
  rw [hw]
  refine ⟨rfl, ?_⟩
  cases maxBytes with
  | zero =>
    simp [read, readLoop, copyResidue, readSpecialCases, toSsize_sizeOfInt_neg_one.2]
  | succ m =>
    simp [read, readLoop, copyResidue, readSpecialCases, toSsize_sizeOfInt_neg_one.2]

theorem read_after_empty_input_witness :
    inputModeScanner.ioctl ≠ 0 ∧
    ((write inputModeScanner [] 0).ret = 0 ∧
      ∃ r, read (write inputModeScanner [] 0).scan 10 0 = some r ∧ r.ret = -1 ∧ r.buf = []) :=
  ⟨by decide, read_after_empty_input inputModeScanner 10 0 0 (by decide)⟩

/-- Claim C8. When the recorded separator count lies within the separator
buffer, `isCharSeparator` returns 1 exactly when `ch` equals one of the first
`separatorListLength` bytes of the separator list, and 0 otherwise.  It is a
function of the session and the character only: it yields a value and no new
session. -/
theorem isCharSeparator_iff (scan : Scanner) (ch : Byte)
    (h : scan.separatorListLength ≤ scan.separatorList.length) :
    (isCharSeparator scan ch = some 1 ↔
      ∃ i, i < scan.separatorListLength ∧ scan.separatorList[i]? = some ch) ∧
    (isCharSeparator scan ch = some 0 ↔
      ¬ ∃ i, i < scan.separatorListLength ∧ scan.separatorList[i]? = some ch) ∧
    (isCharSeparator scan ch = some 1 ∨ isCharSeparator scan ch = some 0) := by
  have hmem : ch ∈ separators scan ↔
      ∃ i, i < scan.separatorListLength ∧ scan.separatorList[i]? = some ch := by
    unfold separators
    rw [List.mem_iff_getElem?]
    constructor
    · rintro ⟨i, hi⟩
      rw [List.getElem?_take] at hi
      by_cases hlt : i < scan.separatorListLength
      · rw [if_pos hlt] at hi
        exact ⟨i, hlt, hi⟩
      · rw [if_neg hlt] at hi
        exact Option.noConfusion hi
    · rintro ⟨i, hlt, hi⟩
      refine ⟨i, ?_⟩
      rw [List.getElem?_take, if_pos hlt]
      exact hi
  rw [isCharSeparator_eq scan ch h, ← hmem]
  by_cases hc : ch ∈ separators scan <;> simp [hc]

theorem isCharSeparator_iff_witness :
    abcdScanner.separatorListLength ≤ abcdScanner.separatorList.length ∧
    ((isCharSeparator abcdScanner 44 = some 1 ↔
      ∃ i, i < abcdScanner.separatorListLength ∧ abcdScanner.separatorList[i]? = some 44) ∧
    (isCharSeparator abcdScanner 44 = some 0 ↔
      ¬ ∃ i, i < abcdScanner.separatorListLength ∧ abcdScanner.separatorList[i]? = some 44) ∧
    (isCharSeparator abcdScanner 44 = some 1 ∨ isCharSeparator abcdScanner 44 = some 0)) :=
  ⟨by decide, isCharSeparator_iff abcdScanner 44 (by decide)⟩

/-- Claim C9. In the mode that takes input (`ioctl` flag not 0, in particular
1), a `write` of the bytes `line` whose transfer succeeds stores them as the
input whatever they are: afterwards the input is `line`, `inputSize` is its
length and the cursor is 0, also when the previous input was not read to its
end; the mode flag and the separator list are unchanged and the call returns
the length. -/
theorem write_supplies_input (scan : Scanner) (line : List Byte) (uncopied : Nat)
    (hmode : scan.ioctl ≠ 0) (hok : copyResidue line.length uncopied = 0)
    (hlen : line.length < 2 ^ 63) :
    input (write scan line uncopied).scan = line ∧
    (write scan line uncopied).scan.s = some (line ++ [0]) ∧
    (write scan line uncopied).scan.inputSize = line.length ∧
    (write scan line uncopied).scan.inputProcessedChars = 0 ∧
    (write scan line uncopied).scan.ioctl = scan.ioctl ∧
    (write scan line uncopied).scan.separatorList = scan.separatorList ∧
    (write scan line uncopied).scan.separatorListLength = scan.separatorListLength ∧
    (write scan line uncopied).ret = (line.length : Int) := by
  unfold write
  rw [if_neg hmode]
  simp [input, writeLen, writeBuffer, hok, toSsize_of_lt _ hlen]

theorem write_supplies_input_witness :
    (inputModeScanner.ioctl ≠ 0 ∧ copyResidue [44, 97].length 0 = 0 ∧
      [44, 97].length < 2 ^ 63) ∧
    (input (write inputModeScanner [44, 97] 0).scan = [44, 97] ∧
    (write inputModeScanner [44, 97] 0).scan.s = some ([44, 97] ++ [0]) ∧
    (write inputModeScanner [44, 97] 0).scan.inputSize = [44, 97].length ∧
    (write inputModeScanner [44, 97] 0).scan.inputProcessedChars = 0 ∧
    (write inputModeScanner [44, 97] 0).scan.ioctl = inputModeScanner.ioctl ∧
    (write inputModeScanner [44, 97] 0).scan.separatorList = inputModeScanner.separatorList ∧
    (write inputModeScanner [44, 97] 0).scan.separatorListLength
      = inputModeScanner.separatorListLength ∧
    (write inputModeScanner [44, 97] 0).ret = (([44, 97] : List Byte).length : Int)) :=
  ⟨⟨by decide, by decide, by decide⟩,
    write_supplies_input inputModeScanner [44, 97] 0 (by decide) (by decide) (by decide)⟩

/-- Claim C10. In the separator mode (`ioctl` flag 0), a `write` of the bytes
`line` whose transfer succeeds makes `line` the separator set: afterwards
`isCharSeparator` returns 1 exactly for the bytes that occur in `line` (for none
when `line` is empty), the call returns the length, and the input buffer,
`inputSize` and the cursor are as before. -/
theorem write_replaces_separators (scan : Scanner) (line : List Byte) (uncopied : Nat)
    (hmode : scan.ioctl = 0) (hok : copyResidue line.length uncopied = 0)
    (hlen : line.length < 2 ^ 63) :
    separators (write scan line uncopied).scan = line ∧
    (∀ ch, (isCharSeparator (write scan line uncopied).scan ch = some 1 ↔ ch ∈ line) ∧
      (isCharSeparator (write scan line uncopied).scan ch = some 0 ↔ ch ∉ line)) ∧
    (line = [] → ∀ ch, isCharSeparator (write scan line uncopied).scan ch = some 0) ∧
    (write scan line uncopied).ret = (line.length : Int) ∧
    (write scan line uncopied).scan.s = scan.s ∧
    (write scan line uncopied).scan.inputSize = scan.inputSize ∧
    (write scan line uncopied).scan.inputProcessedChars = scan.inputProcessedChars := by
  have hw : write scan line uncopied
      = { ret := (line.length : Int)
          scan := { scan with
            separatorList := line ++ [0], separatorListLength := line.length, ioctl := 1 } } := by
    unfold write
    rw [if_pos hmode]
    simp [writeLen, writeBuffer, hok, toSsize_of_lt _ hlen]
  rw [hw]
  have hseps : separators { scan with
      separatorList := line ++ [0], separatorListLength := line.length, ioctl := 1 } = line := by
    simp [separators]
  have hchar : ∀ ch, isCharSeparator { scan with
      separatorList := line ++ [0], separatorListLength := line.length, ioctl := 1 } ch
        = some (if ch ∈ line then 1 else 0) := by
    intro ch
    rw [isCharSeparator_eq _ ch (by simp), hseps]
  refine ⟨hseps, ?_, ?_, rfl, rfl, rfl, rfl⟩
  · intro ch
    rw [hchar ch]
    by_cases hc : ch ∈ line <;> simp [hc]
  · intro hnil ch
    rw [hchar ch, hnil]
    simp

theorem write_replaces_separators_witness :
    (separatorModeScanner.ioctl = 0 ∧ copyResidue [59, 58].length 0 = 0 ∧
      [59, 58].length < 2 ^ 63) ∧
    (separators (write separatorModeScanner [59, 58] 0).scan = [59, 58] ∧
    (∀ ch, (isCharSeparator (write separatorModeScanner [59, 58] 0).scan ch = some 1
        ↔ ch ∈ [59, 58]) ∧
      (isCharSeparator (write separatorModeScanner [59, 58] 0).scan ch = some 0
        ↔ ch ∉ [59, 58])) ∧
    ([59, 58] = [] →
      ∀ ch, isCharSeparator (write separatorModeScanner [59, 58] 0).scan ch = some 0) ∧
    (write separatorModeScanner [59, 58] 0).ret = (([59, 58] : List Byte).length : Int) ∧
    (write separatorModeScanner [59, 58] 0).scan.s = separatorModeScanner.s ∧
    (write separatorModeScanner [59, 58] 0).scan.inputSize = separatorModeScanner.inputSize ∧
    (write separatorModeScanner [59, 58] 0).scan.inputProcessedChars
      = separatorModeScanner.inputProcessedChars) :=
  ⟨⟨by decide, by decide, by decide⟩,
    write_replaces_separators separatorModeScanner [59, 58] 0 (by decide) (by decide)
      (by decide)⟩

/-- Claim C11. In the separator mode a `write` leaves the `ioctl` flag at 1
whether the transfer succeeds or fails, so the `write` that follows it stores
its bytes as the input (buffer, size, cursor 0) and leaves the separator list
alone. -/
theorem write_separators_returns_to_input_mode (scan : Scanner) (line : List Byte)
    (uncopied : Nat) (hmode : scan.ioctl = 0) :
    (write scan line uncopied).scan.ioctl = 1 ∧
    ∀ (line2 : List Byte) (uncopied2 : Nat),
      (write (write scan line uncopied).scan line2 uncopied2).scan
        = { (write scan line uncopied).scan with
            s := some (writeBuffer line2 uncopied2)
            inputSize := writeLen line2 uncopied2
            inputProcessedChars := 0 } := by
  have hflag : (write scan line uncopied).scan.ioctl = 1 := by
    unfold write
    rw [if_pos hmode]
  refine ⟨hflag, ?_⟩
  intro line2 uncopied2
  have hne : (write scan line uncopied).scan.ioctl ≠ 0 := by
    rw [hflag]; decide
  generalize write scan line uncopied = first at hne ⊢
  unfold write
  rw [if_neg hne]

theorem write_separators_returns_to_input_mode_witness :
    separatorModeScanner.ioctl = 0 ∧
    ((write separatorModeScanner [59, 58] 1).scan.ioctl = 1 ∧
    ∀ (line2 : List Byte) (uncopied2 : Nat),
      (write (write separatorModeScanner [59, 58] 1).scan line2 uncopied2).scan
        = { (write separatorModeScanner [59, 58] 1).scan with
            s := some (writeBuffer line2 uncopied2)
            inputSize := writeLen line2 uncopied2
            inputProcessedChars := 0 }) :=
  ⟨by decide, write_separators_returns_to_input_mode separatorModeScanner [59, 58] 1 (by decide)⟩

/-- Claim C12. `ioctl` returns 0 for every `(cmd, arg)`.  For `(cmd, arg)` other
than `(0, 0)` the session is unchanged; for `(0, 0)` the `ioctl` flag becomes 0
(separator mode) and every other field is unchanged. -/
theorem ioctl_only_arms_separator_mode (scan : Scanner) (cmd arg : Nat) :
    (ioctl scan cmd arg).1 = 0 ∧
    (¬ (cmd = 0 ∧ arg = 0) → (ioctl scan cmd arg).2 = scan) ∧
    (cmd = 0 ∧ arg = 0 →
      (ioctl scan cmd arg).2.ioctl = 0 ∧
      (ioctl scan cmd arg).2.s = scan.s ∧
      (ioctl scan cmd arg).2.separatorList = scan.separatorList ∧
      (ioctl scan cmd arg).2.inputSize = scan.inputSize ∧
      (ioctl scan cmd arg).2.separatorListLength = scan.separatorListLength ∧
      (ioctl scan cmd arg).2.inputProcessedChars = scan.inputProcessedChars) := by
  by_cases h : cmd = 0 ∧ arg = 0
  · have hio : ioctl scan cmd arg = (0, { scan with ioctl := 0 }) := by
      unfold ioctl
      rw [if_pos h]
    rw [hio]
    exact ⟨rfl, fun hn => absurd h hn, fun _ => ⟨rfl, rfl, rfl, rfl, rfl, rfl⟩⟩
  · have hio : ioctl scan cmd arg = (0, scan) := by
      unfold ioctl
      rw [if_neg h]
    rw [hio]
    exact ⟨rfl, fun _ => rfl, fun hp => absurd hp h⟩

/-- Claim C13. The session `open` builds from the device set up by `my_init` has
the `ioctl` flag 1 and the default separators: `isCharSeparator` returns 1
exactly for the 18 characters space, tab, newline and
`: ; , + - = ! @ . / # $ % & *`, and 0 for every other character. -/
theorem open_gives_default_session (junkSize junkProcessed : Nat) :
    (openScanner my_init junkSize junkProcessed).ioctl = 1 ∧
    separators (openScanner my_init junkSize junkProcessed)
      = [32, 9, 10, 58, 59, 44, 43, 45, 61, 33, 64, 46, 47, 35, 36, 37, 38, 42] ∧
    ([32, 9, 10, 58, 59, 44, 43, 45, 61, 33, 64, 46, 47, 35, 36, 37, 38, 42] : List Byte).length
      = 18 ∧
    ∀ ch,
      (isCharSeparator (openScanner my_init junkSize junkProcessed) ch = some 1 ↔
        ch ∈ ([32, 9, 10, 58, 59, 44, 43, 45, 61, 33, 64, 46, 47, 35, 36, 37, 38, 42]
          : List Byte)) ∧
      (isCharSeparator (openScanner my_init junkSize junkProcessed) ch = some 0 ↔
        ch ∉ ([32, 9, 10, 58, 59, 44, 43, 45, 61, 33, 64, 46, 47, 35, 36, 37, 38, 42]
          : List Byte)) := by
  have hlen : strlen my_init.separatorList = 18 := by decide
  have hseps : separators (openScanner my_init junkSize junkProcessed)
      = [32, 9, 10, 58, 59, 44, 43, 45, 61, 33, 64, 46, 47, 35, 36, 37, 38, 42] := by
    simp only [separators, openScanner, hlen]
    decide
  have hwithin : (openScanner my_init junkSize junkProcessed).separatorListLength
      ≤ (openScanner my_init junkSize junkProcessed).separatorList.length := by
    simp only [openScanner, hlen]
    decide
  refine ⟨rfl, hseps, rfl, ?_⟩
  intro ch
  have hchar := isCharSeparator_mem_separators _ ch hwithin
  rw [hseps] at hchar
  exact hchar

/-- Claim C14 is not met by the code.  `open` assigns neither `inputSize` nor
`inputProcessedChars` nor `s`, so the first `read` depends on what the
allocation held.  With leftovers `inputSize = 0`, `inputProcessedChars = 7` a
`read` of 10 bytes returns 0, not end-of-stream; with leftovers 5 and 0 it
indexes through the unassigned pointer and has no defined result.  In general a
cursor above the size gives the result 0, and a cursor below the size gives an
access through the unassigned pointer for every request of at least one byte. -/
theorem read_before_any_input :
    read (openScanner my_init 0 7) 10 0
      = some { ret := 0, buf := [], scan := openScanner my_init 0 7 } ∧
    read (openScanner my_init 5 0) 10 0 = none ∧
    (∀ junkSize junkProcessed maxBytes uncopied : Nat, junkSize < junkProcessed →
      read (openScanner my_init junkSize junkProcessed) maxBytes uncopied
        = some { ret := 0, buf := [], scan := openScanner my_init junkSize junkProcessed }) ∧
    (∀ junkSize junkProcessed maxBytes uncopied : Nat, junkProcessed < junkSize →
      read (openScanner my_init junkSize junkProcessed) (maxBytes + 1) uncopied = none) := by
  refine ⟨by decide, by decide, ?_, ?_⟩
  · intro junkSize junkProcessed maxBytes uncopied hlt
    have hnot : ¬ junkProcessed < junkSize := by omega
    have hne : ¬ junkProcessed = junkSize := by omega
    cases maxBytes with
    | zero => simp [read, readLoop, openScanner, copyResidue, readSpecialCases, hne, toSsize]
    | succ m =>
      simp [read, readLoop, openScanner, copyResidue, readSpecialCases, hnot, hne, toSsize]
  · intro junkSize junkProcessed maxBytes uncopied hlt
    simp [read, readLoop, openScanner, hlt]

/-- Claim C15 is not met by the code.  The `read` that reports end-of-stream
passes `s` to `kfree` and leaves the pointer in place; the next `read` skips the
loop (the cursor is still at the end), takes the end-of-stream branch again and
passes the same pointer to `kfree` a second time, which has no defined result.
This holds for every session whose input was released and every request. -/
theorem read_again_after_end_of_stream :
    read emptyInputScanner 10 0
      = some { ret := -1, buf := [], scan := { emptyInputScanner with s := none } } ∧
    read { emptyInputScanner with s := none } 10 0 = none ∧
    readMany 10 2 emptyInputScanner = none ∧
    (∀ (scan : Scanner) (maxBytes uncopied : Nat), scan.s = none →
      scan.inputProcessedChars = scan.inputSize → read scan maxBytes uncopied = none) :=
  ⟨by decide, by decide, by decide,
    fun scan maxBytes uncopied hs hend => read_of_released_input scan maxBytes uncopied hs hend⟩

/-- Claim C16. From the session a `write` of input leaves behind (successful or
not), after any sequence of `read`, `ioctl` and `write` calls that have defined
behaviour, the cursor `inputProcessedChars` is at most `inputSize`; so neither
the scanning loop nor the separator skip of `read` moves it past the end. -/
theorem cursor_never_passes_input_end (scan0 : Scanner) (line : List Byte) (uncopied : Nat)
    (hmode : scan0.ioctl ≠ 0) (calls : List Call) (final : Scanner)
    (hrun : runCalls (write scan0 line uncopied).scan calls = some final) :
    final.inputProcessedChars ≤ final.inputSize := by
  apply runCalls_cursor_bound calls (write scan0 line uncopied).scan final hrun
  unfold write
  rw [if_neg hmode]
  exact Nat.zero_le _

theorem cursor_never_passes_input_end_witness :
    (inputModeScanner.ioctl ≠ 0 ∧
      runCalls (write inputModeScanner [44, 97] 0).scan
          [Call.read 10 0, Call.ioctl 0 0, Call.write [59] 0, Call.read 10 0,
            Call.write [97, 98] 0, Call.read 1 0]
        = some afterCallsScanner) ∧
    afterCallsScanner.inputProcessedChars ≤ afterCallsScanner.inputSize :=
  ⟨⟨by decide, by decide⟩,
    cursor_never_passes_input_end inputModeScanner [44, 97] 0 (by decide)
      [Call.read 10 0, Call.ioctl 0 0, Call.write [59] 0, Call.read 10 0,
        Call.write [97, 98] 0, Call.read 1 0]
      afterCallsScanner (by decide)⟩

/-- Claim C17 is not met by the code.  When `copy_from_user` fails, `write`
stores `-1` in `len` and then records `len` as the length: the recorded
separator count (separator mode) or input size (input mode) is `2^64 - 1`, above
the `len` of the call, and `isCharSeparator` and `read` run past the buffer of
`len + 1` bytes. -/
theorem failed_write_records_sentinel_length :
    (write separatorModeScanner [97, 98] 1).scan.separatorList = [97, 0, 0] ∧
    (write separatorModeScanner [97, 98] 1).scan.separatorListLength = 2 ^ 64 - 1 ∧
    ¬ (write separatorModeScanner [97, 98] 1).scan.separatorListLength
        ≤ ([97, 98] : List Byte).length ∧
    isCharSeparator (write separatorModeScanner [97, 98] 1).scan 120 = none ∧
    (write inputModeScanner [97, 98] 2).scan.s = some [0, 0, 0] ∧
    (write inputModeScanner [97, 98] 2).scan.inputSize = 2 ^ 64 - 1 ∧
    ¬ (write inputModeScanner [97, 98] 2).scan.inputSize ≤ ([97, 98] : List Byte).length ∧
    read (write inputModeScanner [97, 98] 2).scan 10 0 = none ∧
    (∀ (scan : Scanner) (line : List Byte) (uncopied : Nat),
      copyResidue line.length uncopied ≠ 0 →
      (write scan line uncopied).ret = -1 ∧
      (scan.ioctl = 0 → (write scan line uncopied).scan.separatorListLength = 2 ^ 64 - 1) ∧
      (scan.ioctl ≠ 0 → (write scan line uncopied).scan.inputSize = 2 ^ 64 - 1)) := by
  refine ⟨by decide, by decide, by decide, by decide, by decide, by decide, by decide,
    by decide, ?_⟩
  intro scan line uncopied hfail
  have hlen : writeLen line uncopied = sizeOfInt (-1) := by
    unfold writeLen
    rw [if_pos hfail]
  refine ⟨?_, ?_, ?_⟩
  · unfold write
    by_cases hmode : scan.ioctl = 0
    · rw [if_pos hmode]
      show toSsize (writeLen line uncopied) = -1
      rw [hlen]
      exact toSsize_sizeOfInt_neg_one.2
    · rw [if_neg hmode]
      show toSsize (writeLen line uncopied) = -1
      rw [hlen]
      exact toSsize_sizeOfInt_neg_one.2
  · intro hmode
    unfold write
    rw [if_pos hmode]
    show writeLen line uncopied = 2 ^ 64 - 1
    rw [hlen]
    exact toSsize_sizeOfInt_neg_one.1
  · intro hmode
    unfold write
    rw [if_neg hmode]
    show writeLen line uncopied = 2 ^ 64 - 1
    rw [hlen]
    exact toSsize_sizeOfInt_neg_one.1

/-- Claim C18. For every input and `maxBytes ≥ 1`, after the input is supplied by
a successful `write`, the reads up to the first end-of-stream return tokens (each
with its length, never `-1`) whose concatenation is the input without its
separator characters, and the number of zero-length results among them is the
number of separator characters in the input. -/
theorem read_tokens_are_input_without_separators (scan : Scanner) (line : List Byte)
    (maxBytes : Nat) (hmode : scan.ioctl ≠ 0)
    (hsep : scan.separatorListLength ≤ scan.separatorList.length)
    (hm : 1 ≤ maxBytes) (hlen : line.length < 2 ^ 63) :
    ∃ (outs : List (Int × List Byte)) (final : Scanner),
      readMany maxBytes (outs.length + 1) (write scan line 0).scan
        = some (outs ++ [(-1, [])], final) ∧
      (∀ o ∈ outs, o.1 = (o.2.length : Int) ∧ o.1 ≠ -1) ∧
      (outs.map Prod.snd).flatten
        = line.filter (fun c => decide (isCharSeparator scan c = some 0)) ∧
      (outs.filter (fun o => decide (o.1 = 0))).length
        = (line.filter (fun c => decide (isCharSeparator scan c = some 1))).length := by
  obtain ⟨outs, final, hmany, hall, hflat, hcnt, _⟩ :=
    readMany_all (separators scan) maxBytes hm line.length line (write scan line 0).scan
      (Nat.le_refl _) (ready_after_write scan line hmode hsep hlen)
  refine ⟨outs, final, hmany, ?_, ?_, ?_⟩
  · intro o ho
    refine ⟨hall o ho, ?_⟩
    rw [hall o ho]
    omega
  · rw [notSeparator_pred scan hsep]
    exact hflat
  · rw [separator_pred scan hsep]
    exact hcnt

theorem read_tokens_are_input_without_separators_witness :
    (inputModeScanner.ioctl ≠ 0 ∧
      inputModeScanner.separatorListLength ≤ inputModeScanner.separatorList.length ∧
      1 ≤ 2 ∧ [97, 98, 99, 44, 44, 100].length < 2 ^ 63) ∧
    ∃ (outs : List (Int × List Byte)) (final : Scanner),
      readMany 2 (outs.length + 1) (write inputModeScanner [97, 98, 99, 44, 44, 100] 0).scan
        = some (outs ++ [(-1, [])], final) ∧
      (∀ o ∈ outs, o.1 = (o.2.length : Int) ∧ o.1 ≠ -1) ∧
      (outs.map Prod.snd).flatten
        = [97, 98, 99, 44, 44, 100].filter
            (fun c => decide (isCharSeparator inputModeScanner c = some 0)) ∧
      (outs.filter (fun o => decide (o.1 = 0))).length
        = ([97, 98, 99, 44, 44, 100].filter
            (fun c => decide (isCharSeparator inputModeScanner c = some 1))).length :=
  ⟨⟨by decide, by decide, by decide, by decide⟩,
    read_tokens_are_input_without_separators inputModeScanner [97, 98, 99, 44, 44, 100] 2
      (by decide) (by decide) (by decide) (by decide)⟩

/-- Claim C19 is not met by the code in its last part.  For the input `"ab"`
(length 2) and `maxBytes = 10` the first `read` returns the token, the second
returns end-of-stream and releases the input, and the third, which is call
`length(input) + 1`, passes the released pointer to `kfree` again and has no
defined result. -/
theorem read_past_first_end_of_stream :
    abScanner.inputSize = 2 ∧
    readMany 10 2 abScanner
      = some ([(2, [97, 98]), (-1, [])],
          { abScanner with s := none, inputProcessedChars := 2 }) ∧
    readMany 10 3 abScanner = none :=
  ⟨by decide, by decide, by decide⟩

/-- Claim C20. With the cursor before the end of the input, a `read` of 0 bytes
returns 0, delivers nothing and leaves the session as it was, whatever character
is under the cursor; so any number of such reads returns 0 each time and never
end-of-stream. -/
theorem read_zero_bytes_is_idle (scan : Scanner) (uncopied : Nat)
    (h : scan.inputProcessedChars < scan.inputSize) :
    read scan 0 uncopied = some { ret := 0, buf := [], scan := scan } ∧
    ∀ n, readMany 0 n scan = some (List.replicate n (0, []), scan) := by
  have hne : ¬ scan.inputProcessedChars = scan.inputSize := by omega
  have hread : ∀ u, read scan 0 u = some { ret := 0, buf := [], scan := scan } := by
    intro u
    simp [read, readLoop, copyResidue, readSpecialCases, hne, toSsize]
  refine ⟨hread uncopied, ?_⟩
  intro n
  induction n with
  | zero => rfl
  | succ n ih => rw [readMany_succ 0 n scan _ _ scan (hread 0) ih]; rfl

theorem read_zero_bytes_is_idle_witness :
    abcdAtCommaScanner.inputProcessedChars < abcdAtCommaScanner.inputSize ∧
    (read abcdAtCommaScanner 0 0 = some { ret := 0, buf := [], scan := abcdAtCommaScanner } ∧
    ∀ n, readMany 0 n abcdAtCommaScanner = some (List.replicate n (0, []), abcdAtCommaScanner)) :=
  ⟨by decide, read_zero_bytes_is_idle abcdAtCommaScanner 0 (by decide)⟩

end HW5
